import Mathlib

/-!
Verification of the mina-indexer chain-tracking and ledger-derivation subsystem.

This file gives a shallow embedding, in Lean 4, of the parts of the indexer
that the specification talks about:

* the account arithmetic of the ledger engine (src/ledger/account.rs),
* the event-sourced store (src/store.rs),
* block-file name recognition and metadata extraction
  (src/block/ingestion.rs, src/bin/block-ingestion.rs),
* block-file parsing (src/block/precomputed.rs),
* the witness-tree state machine (src/state/mod.rs),
* canonical-chain discovery (rust/src/canonicity/canonical_chain_discovery.rs).

Machine integers are modelled as Nat with explicit reductions modulo 2^w at
operations where the Rust code can wrap; fallible Rust code returns Option or
Except; a Rust panic is modelled as the value none of an Option-typed result.
Rust HashMap/RocksDB column families are modelled as association lists.

Definitions are transcribed from the Rust source.  A few leaf operations live
in files absent from the corpus (the constants module, the Amount arithmetic
helpers, the Branch arena, the serde-json parser, the path helper functions);
those are modelled from the specification and are marked
"Modelled from the spec" in their doc comments.
-/

namespace MinaIndexer

/-- The u64 modulus: account balances are unsigned 64-bit nanomina. -/
def U64MOD : Nat := 2 ^ 64

/-- The u32 modulus: nonces and blockchain lengths are unsigned 32-bit. -/
def U32MOD : Nat := 2 ^ 32

/-- Modelled from the spec: the constants module is absent from the corpus.
The account-creation fee deducted on first deposit, in nanomina (1 MINA). -/
def MAINNET_ACCOUNT_CREATION_FEE : Nat := 1000000000

/-- Modelled from the spec: the constants module is absent from the corpus.
The fixed mainnet canonical threshold (confirmations to declare a block
canonical); scenario S1 of the spec pins it at 10. -/
def MAINNET_CANONICAL_THRESHOLD : Nat := 10

/-! ## Ledger accounts (src/ledger/account.rs) -/

/-- A Mina public key, identified by its base58 address string. -/
structure PublicKey where
  key : String
deriving DecidableEq

/-- Modelled from the spec: Amount.add lives in the absent ledger module;
balances are u64 nanomina, so addition wraps modulo 2^64. -/
def amountAdd (a b : Nat) : Nat :=
  (a + b) % U64MOD

/-- Modelled from the spec: Amount.sub lives in the absent ledger module;
u64 subtraction, total on the in-range uses the code makes (minuend at least
subtrahend); modelled as truncated Nat subtraction. -/
def amountSub (a b : Nat) : Nat :=
  a - b

/-- An account of the ledger: public key, balance (u64 nanomina),
nonce (u32), optional delegate.  Mirrors struct Account. -/
structure Account where
  public_key : PublicKey
  balance : Nat
  nonce : Nat
  delegate : Option PublicKey
deriving DecidableEq

/-- Account::from_coinbase: if the prior balance is zero, credit
amount minus the account-creation fee, otherwise credit the full amount;
nonce and delegate are kept. -/
def Account.from_coinbase (pre : Account) (amount : Nat) : Account :=
  { public_key := pre.public_key
    balance :=
      if pre.balance = 0 then amountSub amount MAINNET_ACCOUNT_CREATION_FEE
      else amountAdd pre.balance amount
    nonce := pre.nonce
    delegate := pre.delegate }

/-- Account::from_deduction: fail (None) if the amount exceeds the balance,
otherwise subtract the amount and bump the nonce. -/
def Account.from_deduction (pre : Account) (amount : Nat) : Option Account :=
  if amount > pre.balance then none
  else some
    { public_key := pre.public_key
      balance := amountSub pre.balance amount
      nonce := (pre.nonce + 1) % U32MOD
      delegate := pre.delegate }

/-- Account::from_deposit: add the amount to the balance and bump the nonce. -/
def Account.from_deposit (pre : Account) (amount : Nat) : Account :=
  { public_key := pre.public_key
    balance := amountAdd pre.balance amount
    nonce := (pre.nonce + 1) % U32MOD
    delegate := pre.delegate }

/-- Account::from_delegation: set the delegate and bump the nonce;
the balance is kept. -/
def Account.from_delegation (pre : Account) (delegate : PublicKey) : Account :=
  { public_key := pre.public_key
    balance := pre.balance
    nonce := (pre.nonce + 1) % U32MOD
    delegate := some delegate }

/-- Modelled from the spec: the diff-application routine lives in the absent
ledger module.  Spec 4.4: Payment(source, receiver, amount, fee) decrements
the source via Account::from_deduction by amount + fee and credits the
receiver via Account::from_deposit by amount; on insufficient source balance
the deduction fails and the receiver is untouched. -/
def applyPayment (source receiver : Account) (amount fee : Nat) :
    Option (Account × Account) :=
  match Account.from_deduction source (amountAdd amount fee) with
  | none => none
  | some newSource => some (newSource, Account.from_deposit receiver amount)

/-! ### C4: payment arithmetic -/

/-- C4 counterexample.  The claim asserts that a payment leaves the receiver
nonce unchanged, but Account::from_deposit bumps the nonce of the credited
account: depositing 10 into an account with nonce 0 yields nonce 1. -/
theorem from_deposit_bumps_receiver_nonce :
    (Account.from_deposit ⟨⟨"B62qReceiver"⟩, 100, 0, none⟩ 10).nonce ≠ 0 := by
  decide

/-- C4 (amended): applying Payment(source, receiver, amount, fee) decrements
the source balance by amount + fee, bumps the source nonce, credits the
receiver with amount and bumps the receiver nonce as well (from_deposit
increments the nonce of the credited account); both delegates are unchanged;
when the source balance is insufficient the deduction fails (None) without
producing a receiver update. -/
theorem applyPayment_spec (src rcv : Account) (amount fee : Nat)
    (hnof : amount + fee < U64MOD) (hrof : rcv.balance + amount < U64MOD) :
    (amount + fee ≤ src.balance →
      applyPayment src rcv amount fee =
        some (⟨src.public_key, src.balance - (amount + fee),
                (src.nonce + 1) % U32MOD, src.delegate⟩,
              ⟨rcv.public_key, rcv.balance + amount,
                (rcv.nonce + 1) % U32MOD, rcv.delegate⟩)) ∧
    (src.balance < amount + fee →
      applyPayment src rcv amount fee = none) := by
  constructor
  · intro hle
    have hadd : amountAdd amount fee = amount + fee := Nat.mod_eq_of_lt hnof
    have hradd : amountAdd rcv.balance amount = rcv.balance + amount :=
      Nat.mod_eq_of_lt hrof
    simp only [applyPayment, Account.from_deduction, Account.from_deposit,
      amountSub, hadd, hradd]
    rw [if_neg (by omega)]
  · intro hlt
    have hadd : amountAdd amount fee = amount + fee := Nat.mod_eq_of_lt hnof
    simp only [applyPayment, Account.from_deduction, hadd]
    rw [if_pos (by omega)]

/-- C4 witness: a concrete payment of 10 with fee 2 from a source holding 100
(nonce 7) to a receiver holding 5 (nonce 3). -/
theorem applyPayment_spec_witness :
    applyPayment ⟨⟨"B62qSource"⟩, 100, 7, none⟩ ⟨⟨"B62qReceiver"⟩, 5, 3, none⟩ 10 2 =
      some (⟨⟨"B62qSource"⟩, 88, 8, none⟩, ⟨⟨"B62qReceiver"⟩, 15, 4, none⟩) := by
  have h := (applyPayment_spec ⟨⟨"B62qSource"⟩, 100, 7, none⟩
    ⟨⟨"B62qReceiver"⟩, 5, 3, none⟩ 10 2 (by decide) (by decide)).1 (by decide)
  simpa using h

/-! ### C5: coinbase crediting -/

/-- C5 counterexample.  The claim asserts that an already-existing receiver is
credited the full coinbase amount for every prior balance including zero, but
Account::from_coinbase branches on the balance being zero, not on account
existence: an existing account (nonce 5) holding balance 0 receiving a
2-MINA coinbase is credited 2 MINA minus the creation fee, not 2 MINA. -/
theorem from_coinbase_existing_zero_balance :
    (Account.from_coinbase ⟨⟨"B62qExisting"⟩, 0, 5, none⟩ 2000000000).balance ≠
      2000000000 := by
  decide

/-- C5 (amended): Account.from_coinbase credits amount minus the
account-creation fee whenever the prior balance is zero — even for an
existing, just-emptied account — and credits the full amount whenever the
prior balance is nonzero; nonce and delegate are unchanged in both cases. -/
theorem from_coinbase_spec (pre : Account) (amount : Nat)
    (hfee : MAINNET_ACCOUNT_CREATION_FEE ≤ amount)
    (hof : pre.balance + amount < U64MOD) :
    (Account.from_coinbase pre amount).balance =
      (if pre.balance = 0 then amount - MAINNET_ACCOUNT_CREATION_FEE
       else pre.balance + amount) ∧
    (Account.from_coinbase pre amount).nonce = pre.nonce ∧
    (Account.from_coinbase pre amount).delegate = pre.delegate ∧
    (Account.from_coinbase pre amount).public_key = pre.public_key := by
  refine ⟨?_, rfl, rfl, rfl⟩
  by_cases h0 : pre.balance = 0
  · simp [Account.from_coinbase, h0, amountSub]
  · simp [Account.from_coinbase, h0, amountAdd, Nat.mod_eq_of_lt hof]

/-- C5 witness: a fresh receiver (balance 0) of a 2-MINA coinbase nets
1 MINA; the fee and overflow side conditions hold at this input. -/
theorem from_coinbase_spec_witness :
    (Account.from_coinbase ⟨⟨"B62qNew"⟩, 0, 0, none⟩ 2000000000).balance =
      1000000000 := by
  have h := (from_coinbase_spec ⟨⟨"B62qNew"⟩, 0, 0, none⟩ 2000000000
    (by decide) (by decide)).1
  simpa using h

/-! ## Key-value primitives

RocksDB column families are ordered key-value maps; the store only ever uses
point reads (get_cf) and point writes (put_cf, overwrite semantics), which an
association list models exactly. -/

/-- Point read of a column family. -/
def kvGet {α β : Type} [BEq α] (k : α) (m : List (α × β)) : Option β :=
  (m.find? (fun p => p.1 == k)).map Prod.snd

/-- Point write of a column family: overwrite any existing binding. -/
def kvPut {α β : Type} [BEq α] (k : α) (v : β) (m : List (α × β)) :
    List (α × β) :=
  (k, v) :: m.filter (fun p => !(p.1 == k))

theorem kvGet_put_self {α β : Type} [BEq α] [LawfulBEq α] (k : α) (v : β)
    (m : List (α × β)) : kvGet k (kvPut k v m) = some v := by
  simp [kvGet, kvPut, List.find?]

theorem kvGet_put_ne {α β : Type} [BEq α] [LawfulBEq α] {k j : α} (v : β)
    (m : List (α × β)) (h : j ≠ k) : kvGet j (kvPut k v m) = kvGet j m := by
  have hbeq : (k == j) = false := by
    simp [beq_eq_false_iff_ne]
    exact fun he => h he.symm
  simp only [kvGet, kvPut, List.find?, hbeq]
  induction m with
  | nil => rfl
  | cons p t ih =>
    by_cases hp : p.1 = k
    · have h1 : (p.1 == k) = true := by simp [hp]
      have h2 : (p.1 == j) = false := by
        simp [beq_eq_false_iff_ne, hp]
        exact fun he => h he.symm
      simp only [List.filter, h1, Bool.not_true, List.find?, h2] at ih ⊢
      exact ih
    · have h1 : (p.1 == k) = false := by simp [beq_eq_false_iff_ne, hp]
      by_cases hj : p.1 = j
      · subst hj
        simp [List.filter, h1, List.find?]
      · have h2 : (p.1 == j) = false := by simp [beq_eq_false_iff_ne, hj]
        simp only [List.filter, h1, Bool.not_false, List.find?, h2] at ih ⊢
        exact ih

/-! ## Blocks and events -/

/-- Canonicity tag of a stored block (src/state/mod.rs). -/
inductive Canonicity where
  | canonical
  | orphaned
  | pending
deriving DecidableEq

/-- A precomputed block, trimmed to the fields the store and the state
machine read (src/block/precomputed.rs keeps many more, all carried along
unchanged by the operations modelled here). -/
structure PrecomputedBlock where
  canonicity : Option Canonicity
  state_hash : String
  blockchain_length : Nat
  previous_state_hash : String
deriving DecidableEq

/-- Modelled from the spec: the event module is absent from the corpus; the
journal persists exactly these database event kinds (spec 4.6), carried by
the Db variant of the event enumeration. -/
inductive DbEvent where
  | newBlock (path : String) (state_hash : String) (blockchain_length : Nat)
  | alreadySeenBlock (state_hash : String) (blockchain_length : Nat)
  | newCanonicalBlock (state_hash : String) (blockchain_length : Nat)
  | newLedger (path : String) (hash : String)
deriving DecidableEq

/-- Modelled from the spec: the event module is absent from the corpus.
An event is either a database event (persisted to the journal) or a
witness-tree state event (matched as Event::State in add_event and never
persisted); the state payload is the updated-canonical-chain block list. -/
inductive Event where
  | db (e : DbEvent)
  | stateEvt (canonicalHashes : List String)
deriving DecidableEq

/-- True exactly on the Event::State variant. -/
def Event.isStateEvt : Event → Bool
  | .stateEvt _ => true
  | .db _ => false

/-! ## The indexer store (src/store.rs)

The four column families of IndexerStore::new, plus the two fixed meta keys
(they live inside the canonicity and events families under string keys that
can never collide with the big-endian numeric keys, so they are modelled as
separate fields).  The ledger value type is a parameter: ledger contents are
opaque to the store. -/

structure IndexerStore (L : Type) where
  blocks : List (String × PrecomputedBlock)
  canonicity : List (Nat × String)
  maxCanonicalLength : Option Nat
  ledgers : List (String × L)
  events : List (Nat × Event)
  nextSeqRaw : Option Nat

/-- An empty store, as produced by IndexerStore::new on a fresh directory. -/
def freshStore (L : Type) : IndexerStore L :=
  { blocks := [], canonicity := [], maxCanonicalLength := none,
    ledgers := [], events := [], nextSeqRaw := none }

namespace IndexerStore

variable {L : Type}

/-- EventStore::get_next_seq_num: the stored pointer, or 0 when absent. -/
def get_next_seq_num (s : IndexerStore L) : Nat :=
  match s.nextSeqRaw with
  | some n => n
  | none => 0

/-- EventStore::add_event: read the next sequence number; State events are
not persisted (the sequence number is returned unchanged); otherwise write
the event under the sequence number, advance the pointer, and return the
incremented sequence number. -/
def add_event (e : Event) (s : IndexerStore L) : Nat × IndexerStore L :=
  let seqNum := s.get_next_seq_num
  if e.isStateEvt then (seqNum, s)
  else
    (seqNum + 1,
     { s with
        events := kvPut seqNum e s.events
        nextSeqRaw := some (seqNum + 1) })

/-- EventStore::get_event. -/
def get_event (n : Nat) (s : IndexerStore L) : Option Event :=
  kvGet n s.events

/-- BlockStore::add_block: write the block under its state hash, then
unconditionally append a NewBlock event for it. -/
def add_block (b : PrecomputedBlock) (s : IndexerStore L) : IndexerStore L :=
  let s1 := { s with blocks := kvPut b.state_hash b s.blocks }
  (add_event (Event.db (DbEvent.newBlock "." b.state_hash b.blockchain_length)) s1).2

/-- BlockStore::get_block (serialisation round-trips, so the stored value is
returned as is). -/
def get_block (h : String) (s : IndexerStore L) : Option PrecomputedBlock :=
  kvGet h s.blocks

/-- BlockStore::set_block_canonicity: re-insert the stored block with the
canonicity field set, via add_block (which appends another NewBlock event). -/
def set_block_canonicity (h : String) (c : Canonicity) (s : IndexerStore L) :
    IndexerStore L :=
  match s.get_block h with
  | none => s
  | some b => add_block { b with canonicity := some c } s

/-- CanonicityStore::add_canonical_block: record the canonical hash at the
height and append a NewCanonicalBlock event. -/
def add_canonical_block (height : Nat) (h : String) (s : IndexerStore L) :
    IndexerStore L :=
  let s1 := { s with canonicity := kvPut height h s.canonicity }
  (add_event (Event.db (DbEvent.newCanonicalBlock h height)) s1).2

/-- CanonicityStore::get_canonical_hash_at_height. -/
def get_canonical_hash_at_height (height : Nat) (s : IndexerStore L) :
    Option String :=
  kvGet height s.canonicity

/-- LedgerStore::add_ledger: write the ledger under the state hash and
append a NewLedger event. -/
def add_ledger (h : String) (l : L) (s : IndexerStore L) : IndexerStore L :=
  let s1 := { s with ledgers := kvPut h l s.ledgers }
  (add_event (Event.db (DbEvent.newLedger "." h)) s1).2

end IndexerStore

/-- The number of NewBlock events for a given state hash in a journal. -/
def countNewBlockEvents (h : String) (evs : List (Nat × Event)) : Nat :=
  (evs.filter (fun p =>
    match p.2 with
    | .db (.newBlock _ sh _) => sh == h
    | _ => false)).length

/-! ### C1: duplicate block insertion -/

/-- C1 (code bug).  The claim — duplicate insertion is idempotent, yielding
AlreadySeen instead of a second NewBlock, so each persisted block has exactly
one NewBlock event — matches the stated intent (the caller branches on
is_new_block_event and replay handles AlreadySeenBlock), but add_block
unconditionally rewrites the block and appends a NewBlock event, and
set_block_canonicity re-inserts through add_block: inserting a block and then
setting its canonicity leaves two NewBlock events for its hash in the
journal, and inserting the same block twice does the same. -/
theorem add_block_duplicate_newblock_events :
    countNewBlockEvents "3NTest"
      (IndexerStore.set_block_canonicity "3NTest" Canonicity.canonical
        (IndexerStore.add_block ⟨none, "3NTest", 2, "3NGenesis"⟩
          (freshStore Unit))).events = 2 ∧
    countNewBlockEvents "3NTest"
      (IndexerStore.add_block ⟨none, "3NTest", 2, "3NGenesis"⟩
        (IndexerStore.add_block ⟨none, "3NTest", 2, "3NGenesis"⟩
          (freshStore Unit))).events = 2 := by
  constructor <;> rfl

/-! ### C7: event-journal density -/

/-- A sequence of EventStore::add_event calls, in order. -/
def addEvents {L : Type} (es : List Event) (s : IndexerStore L) : IndexerStore L :=
  es.foldl (fun t e => (IndexerStore.add_event e t).2) s

/-- The journal holds an event at exactly the sequence numbers below the
next-sequence pointer. -/
def EventDense {L : Type} (s : IndexerStore L) : Prop :=
  ∀ n, (IndexerStore.get_event n s).isSome = true ↔ n < s.get_next_seq_num

theorem eventDense_fresh (L : Type) : EventDense (freshStore L) := by
  intro n
  simp [IndexerStore.get_event, IndexerStore.get_next_seq_num, freshStore,
    kvGet]

theorem add_event_nextSeq_mono {L : Type} (e : Event) (s : IndexerStore L) :
    s.get_next_seq_num ≤ ((IndexerStore.add_event e s).2).get_next_seq_num := by
  by_cases hst : e.isStateEvt
  · simp [IndexerStore.add_event, hst]
  · simp [IndexerStore.add_event, hst, IndexerStore.get_next_seq_num]

theorem add_event_preserves_below {L : Type} (e : Event) (s : IndexerStore L)
    (n : Nat) (hn : n < s.get_next_seq_num) :
    IndexerStore.get_event n (IndexerStore.add_event e s).2 =
      IndexerStore.get_event n s := by
  by_cases hst : e.isStateEvt
  · simp [IndexerStore.add_event, hst]
  · simp only [IndexerStore.add_event, hst, Bool.false_eq_true, if_false,
      IndexerStore.get_event]
    exact kvGet_put_ne _ _ (Nat.ne_of_lt hn)

theorem add_event_dense {L : Type} (e : Event) (s : IndexerStore L)
    (hd : EventDense s) : EventDense (IndexerStore.add_event e s).2 := by
  by_cases hst : e.isStateEvt
  · simpa [IndexerStore.add_event, hst] using hd
  · intro n
    have hgoal : IndexerStore.get_event n (IndexerStore.add_event e s).2 =
        kvGet n (kvPut s.get_next_seq_num e s.events) := by
      simp [IndexerStore.add_event, hst, IndexerStore.get_event]
    have hnext : ((IndexerStore.add_event e s).2).get_next_seq_num =
        s.get_next_seq_num + 1 := by
      simp [IndexerStore.add_event, hst, IndexerStore.get_next_seq_num]
    rw [hgoal, hnext]
    by_cases hn : n = s.get_next_seq_num
    · subst hn
      simp [kvGet_put_self]
    · rw [kvGet_put_ne _ _ hn]
      have := hd n
      simp only [IndexerStore.get_event] at this
      rw [this]
      omega

theorem addEvents_dense {L : Type} (es : List Event) (s : IndexerStore L)
    (hd : EventDense s) : EventDense (addEvents es s) := by
  induction es generalizing s with
  | nil => exact hd
  | cons e t ih => exact ih _ (add_event_dense e s hd)

theorem addEvents_nextSeq_mono {L : Type} (es : List Event) (s : IndexerStore L) :
    s.get_next_seq_num ≤ (addEvents es s).get_next_seq_num := by
  induction es generalizing s with
  | nil => exact Nat.le_refl _
  | cons e t ih =>
    exact Nat.le_trans (add_event_nextSeq_mono e s) (ih _)

theorem addEvents_preserves_below {L : Type} (es : List Event)
    (s : IndexerStore L) (n : Nat) (hn : n < s.get_next_seq_num) :
    IndexerStore.get_event n (addEvents es s) = IndexerStore.get_event n s := by
  induction es generalizing s with
  | nil => rfl
  | cons e t ih =>
    have h1 : n < ((IndexerStore.add_event e s).2).get_next_seq_num :=
      Nat.lt_of_lt_of_le hn (add_event_nextSeq_mono e s)
    calc IndexerStore.get_event n (addEvents t (IndexerStore.add_event e s).2)
        = IndexerStore.get_event n (IndexerStore.add_event e s).2 := ih _ h1
      _ = IndexerStore.get_event n s := add_event_preserves_below e s n hn

/-- C7: event sequence numbers are dense, monotonic and begin at zero — after
any sequence of add_event calls on a fresh store, get_event n is Some for
every n below the next sequence number, and no already-written event is ever
overwritten or deleted by further add_event calls. -/
theorem event_journal_dense_append_only (es : List Event) :
    (∀ n, n < (addEvents es (freshStore Unit)).get_next_seq_num →
      (IndexerStore.get_event n (addEvents es (freshStore Unit))).isSome = true) ∧
    (∀ more n, n < (addEvents es (freshStore Unit)).get_next_seq_num →
      IndexerStore.get_event n (addEvents more (addEvents es (freshStore Unit))) =
        IndexerStore.get_event n (addEvents es (freshStore Unit))) := by
  constructor
  · intro n hn
    exact (addEvents_dense es (freshStore Unit) (eventDense_fresh Unit) n).mpr hn
  · intro more n hn
    exact addEvents_preserves_below more _ n hn

/-- C7 witness: two concrete journal writes followed by a third; the event at
sequence number 1 is present and survives the later write unchanged. -/
theorem event_journal_dense_append_only_witness :
    (1 < (addEvents [Event.db (DbEvent.newBlock "." "3Na" 1),
            Event.db (DbEvent.newBlock "." "3Nb" 2)] (freshStore Unit)).get_next_seq_num ∧
      (IndexerStore.get_event 1 (addEvents [Event.db (DbEvent.newBlock "." "3Na" 1),
        Event.db (DbEvent.newBlock "." "3Nb" 2)] (freshStore Unit))).isSome = true) ∧
    IndexerStore.get_event 1 (addEvents [Event.db (DbEvent.newCanonicalBlock "3Nb" 2)]
        (addEvents [Event.db (DbEvent.newBlock "." "3Na" 1),
          Event.db (DbEvent.newBlock "." "3Nb" 2)] (freshStore Unit))) =
      IndexerStore.get_event 1 (addEvents [Event.db (DbEvent.newBlock "." "3Na" 1),
        Event.db (DbEvent.newBlock "." "3Nb" 2)] (freshStore Unit)) :=
  ⟨⟨by decide,
    (event_journal_dense_append_only [Event.db (DbEvent.newBlock "." "3Na" 1),
      Event.db (DbEvent.newBlock "." "3Nb" 2)]).1 1 (by decide)⟩,
   (event_journal_dense_append_only [Event.db (DbEvent.newBlock "." "3Na" 1),
      Event.db (DbEvent.newBlock "." "3Nb" 2)]).2
        [Event.db (DbEvent.newCanonicalBlock "3Nb" 2)] 1 (by decide)⟩

/-! ## Block file names (src/block/ingestion.rs, src/bin/block-ingestion.rs)

File names are modelled as character lists; the Rust code first takes
path.file_name() (the final path component) and works on that string, so the
embedding takes the file name directly. -/

/-- str::split on the dash character: every maximal dash-free run, keeping
empty runs (so the result always has one more part than there are dashes). -/
def splitDash : List Char → List (List Char)
  | [] => [[]]
  | c :: rest =>
    match splitDash rest with
    | [] => [[c]]
    | p :: ps => if c = '-' then [] :: p :: ps else (c :: p) :: ps

/-- str::ends_with ".json". -/
def jsonSuffix (s : List Char) : Bool :=
  List.isSuffixOf ".json".toList s

/-- str::starts_with "3N". -/
def threeN (s : List Char) : Bool :=
  List.isPrefixOf "3N".toList s

/-- The numeric value of a digit run: none on an empty run or a non-digit. -/
def digitsVal (cs : List Char) : Option Nat :=
  if cs.isEmpty then none
  else cs.foldl (fun acc c =>
    match acc with
    | none => none
    | some v => if c.isDigit then some (v * 10 + (c.toNat - 48)) else none)
    (some 0)

/-- u64::from_str: an optional leading plus sign, then digits, the value
fitting in 64 bits. -/
def parseU64 (s : List Char) : Option Nat :=
  let t := match s with
    | '+' :: rest => rest
    | _ => s
  match digitsVal t with
  | some v => if v < U64MOD then some v else none
  | none => none

/-- u32::from_str: an optional leading plus sign, then digits, the value
fitting in 32 bits. -/
def parseU32 (s : List Char) : Option Nat :=
  let t := match s with
    | '+' :: rest => rest
    | _ => s
  match digitsVal t with
  | some v => if v < U32MOD then some v else none
  | none => none

/-- is_valid_block_file (src/block/ingestion.rs and the identical copy in
src/bin/block-ingestion.rs): split the file name on dashes; with two parts
the second must end in ".json" and start with "3N"; with three parts the
middle must parse as a u64 and the third must end in ".json" and start with
"3N"; any other part count is invalid. -/
def is_valid_block_file (fileName : List Char) : Bool :=
  match splitDash fileName with
  | [_, p1] => jsonSuffix p1 && threeN p1
  | [_, p1, p2] => (parseU64 p1).isSome && jsonSuffix p2 && threeN p2
  | _ => false

/-- drop_extension (src/bin/block-ingestion.rs): str::rsplit_once on the dot,
keeping the part before the last dot, or the whole name when there is none. -/
def drop_extension (s : List Char) : List Char :=
  match s.reverse.dropWhile (fun c => !(c == '.')) with
  | [] => s
  | _ :: before => before.reverse

/-- extract_block_metadata (src/bin/block-ingestion.rs): with two parts,
network and hash (no height); with three parts, network, the height parsed
as a u32 — the parse result is unwrapped by expect, so a height outside u32
panics (modelled as the outer none) — and the hash; any other part count is
None.  The outer Option is the panic, the inner Option the Rust return. -/
def extract_block_metadata (fileName : List Char) :
    Option (Option (List Char × Option Nat × List Char)) :=
  match splitDash fileName with
  | [p0, p1] => some (some (p0, none, drop_extension p1))
  | [p0, p1, p2] =>
    match parseU32 p1 with
    | some h => some (some (p0, some h, drop_extension p2))
    | none => none
  | _ => some none

/-! ### C9: filename validity and length extraction -/

/-- C9 (code bug).  On the two recognised patterns with in-range heights the
two functions agree (first two conjuncts), but is_valid_block_file accepts
any u64 height while extract_block_metadata unwraps a u32 parse with
expect("should be u64"): the file name mainnet-4294967296-3NTest.json (height
2 to the 32nd) is declared valid and then panics during metadata extraction
instead of returning its height. -/
theorem block_file_height_u32_panic :
    (is_valid_block_file "mainnet-2-3NTest.json".toList = true ∧
      extract_block_metadata "mainnet-2-3NTest.json".toList =
        some (some ("mainnet".toList, some 2, "3NTest".toList))) ∧
    (is_valid_block_file "mainnet-3NTest.json".toList = true ∧
      extract_block_metadata "mainnet-3NTest.json".toList =
        some (some ("mainnet".toList, none, "3NTest".toList))) ∧
    is_valid_block_file "mainnet-4294967296-3NTest.json".toList = true ∧
    extract_block_metadata "mainnet-4294967296-3NTest.json".toList = none := by
  refine ⟨⟨?_, ?_⟩, ⟨?_, ?_⟩, ?_, ?_⟩ <;> decide

/-! ## Block file parsing (src/block/precomputed.rs) -/

/-- BlockFileContents: the state hash and optional length recovered from the
file name, plus the raw file body. -/
structure BlockFileContents where
  state_hash : String
  blockchain_length : Option Nat
  contents : String

/-- The deserialised JSON document (struct BlockFile), trimmed to the fields
from_file_contents reads: the consensus blockchain length used as fallback
when the file name carries no length, and the previous state hash. -/
structure BlockFileDoc where
  consensus_blockchain_length : Nat
  previous_state_hash : String

/-- PrecomputedBlock::from_file_contents: deserialise the body with
serde_json — whose parser is abstracted here as a function to a Result,
modelled from the spec since serde itself is external — and unwrap the
outcome, so a parse failure panics (the outer none) instead of surfacing as
the Err of the declared serde_json::Result return type; on success the
blockchain length is the file-name length when present, else the consensus
length from the body. -/
def from_file_contents (parse : String → Except String BlockFileDoc)
    (lc : BlockFileContents) : Option PrecomputedBlock :=
  match parse lc.contents with
  | .error _ => none
  | .ok doc =>
      some
        { canonicity := none
          state_hash := lc.state_hash
          blockchain_length :=
            match lc.blockchain_length with
            | some l => l
            | none => doc.consensus_blockchain_length
          previous_state_hash := doc.previous_state_hash }

/-! ### C8: malformed block JSON -/

/-- C8 (code bug).  The claim — malformed block JSON yields a ParseError
result, the file is skipped and the error never propagates — matches the
declared serde_json::Result return type, but the implementation unwraps the
serde parse, so for every body the parser rejects, from_file_contents panics
(none) rather than returning an error the caller could log and skip. -/
theorem from_file_contents_panics_on_malformed
    (parse : String → Except String BlockFileDoc) (lc : BlockFileContents)
    (e : String) (h : parse lc.contents = .error e) :
    from_file_contents parse lc = none := by
  simp [from_file_contents, h]

/-- C8 witness: a parser rejecting every body, applied to the contents
"not json". -/
theorem from_file_contents_panics_on_malformed_witness :
    from_file_contents (fun _ => Except.error "expected value at line 1")
      ⟨"3NTest", some 2, "not json"⟩ = none :=
  from_file_contents_panics_on_malformed
    (fun _ => Except.error "expected value at line 1")
    ⟨"3NTest", some 2, "not json"⟩ "expected value at line 1" rfl

/-! ## The witness tree state machine (src/state/mod.rs)

The Branch arena (branch.rs, built on the external id_tree crate) is absent
from the corpus, so the branch type is a parameter together with a record of
the operations the state machine invokes on it; the state machine itself is
transcribed from src/state/mod.rs.  Ledger-diff and ledger values are opaque
type parameters with their two application functions abstracted. -/

/-- An id_tree node identifier. -/
abbrev NodeId : Type := Nat

/-- Modelled from the spec: the witness-tree block summary (struct Block of
the absent block module): state hash, parent hash, height (distance above
genesis, length minus one) and blockchain length. -/
structure Block where
  state_hash : String
  parent_hash : String
  height : Nat
  blockchain_length : Nat
deriving DecidableEq

instance : Inhabited Block := ⟨⟨"", "", 0, 0⟩⟩

/-- A tracked tip: state hash plus node id inside the root branch. -/
structure Tip where
  state_hash : String
  node_id : NodeId
deriving DecidableEq

/-- The seven extension outcomes of offering a block to the witness tree. -/
inductive ExtensionType where
  | DanglingNew
  | DanglingSimpleForward
  | DanglingSimpleReverse
  | DanglingComplex
  | RootSimple
  | RootComplex
  | BlockNotAdded
deriving DecidableEq

/-- Direction of a dangling-branch extension. -/
inductive ExtensionDirection where
  | Forward
  | Reverse
deriving DecidableEq

/-- Modelled from the spec: the operations the state machine calls on a
Branch (branch.rs is absent from the corpus).  Mutating Rust methods return
the updated branch; methods the source unwraps are total here. -/
structure BranchOps (B : Type) where
  rootBlock : B → Block
  rootNodeId : B → NodeId
  getBlock : B → NodeId → Block
  bestTipWithId : B → NodeId × Block
  bestTipBlockOf : B → Block
  simpleExtension : B → PrecomputedBlock → Option (NodeId × Block × B)
  newRoot : B → PrecomputedBlock → B
  mergeOn : B → NodeId → B → Option NodeId × B
  branchNew : PrecomputedBlock → B
  ancestorIds : B → NodeId → List NodeId
  levelOrderIds : B → NodeId → List NodeId
  pruneTransitionFrontier : B → Nat → Block → B
  height : B → Nat

/-- struct IndexerState, trimmed of the phase tag and timing fields (which
no modelled operation reads). -/
structure IndexerState (B D L : Type) where
  bestTip : Tip
  canonicalTip : Tip
  diffsMap : List (String × D)
  rootBranch : B
  danglingBranches : List B
  indexerStore : Option (IndexerStore L)
  transitionFrontierLength : Nat
  pruneInterval : Nat
  canonicalUpdateThreshold : Nat
  blocksProcessed : Nat

/-- The fueled parent walk of LedgerStore::get_ledger; blocks collected on
the way down are consed (so the accumulator is already oldest-first, which
matches the push-then-reverse of the source) and applied in order once a
stored ledger is found.  The walk visits pairwise distinct stored blocks in
every terminating Rust execution, so fuel exceeding the block count is never
exhausted. -/
def getLedgerGo {L : Type} (applyPB : L → PrecomputedBlock → L)
    (s : IndexerStore L) : Nat → String → List PrecomputedBlock → Option L
  | 0, _, _ => none
  | fuel + 1, h, acc =>
    match kvGet h s.ledgers with
    | some l => some (acc.foldl applyPB l)
    | none =>
      match kvGet h s.blocks with
      | some b => getLedgerGo applyPB s fuel b.previous_state_hash (b :: acc)
      | none => none

/-- LedgerStore::get_ledger: walk previous-state-hash links back from the
requested hash until a stored ledger is found, collecting the traversed
blocks, then apply their post balances oldest-first; fail (None) when the
walk meets a hash that is neither a stored ledger nor a stored block. -/
def get_ledger {L : Type} (applyPB : L → PrecomputedBlock → L)
    (s : IndexerStore L) (h : String) : Option L :=
  getLedgerGo applyPB s (s.blocks.length + 1) h []

section StateMachine

variable {B D L : Type} [Inhabited B] (ops : BranchOps B)
variable (diffOfBlock : PrecomputedBlock → D)
variable (applyDiff : L → D → L) (applyPB : L → PrecomputedBlock → L)

/-- IndexerState::best_tip_block. -/
def bestTipBlock (st : IndexerState B D L) : Block :=
  ops.getBlock st.rootBranch st.bestTip.node_id

/-- IndexerState::canonical_tip_block. -/
def canonicalTipBlock (st : IndexerState B D L) : Block :=
  ops.getBlock st.rootBranch st.canonicalTip.node_id

/-- IndexerState::is_canonical_updatable: the height gap between best tip
and canonical tip reaches the update threshold (u32 subtraction, in range in
every reachable state, modelled as truncated Nat subtraction). -/
def is_canonical_updatable (st : IndexerState B D L) : Bool :=
  st.canonicalUpdateThreshold ≤
    (bestTipBlock ops st).height - (canonicalTipBlock ops st).height

/-- IndexerState::get_new_canonical_blocks: walk the best tip ancestors,
skip the first MAINNET_CANONICAL_THRESHOLD minus one, collect blocks until
the old canonical tip, move the canonical tip to the first collected block,
and return the collected blocks lowest-to-highest. -/
def get_new_canonical_blocks (st : IndexerState B D L) (oldId : NodeId) :
    IndexerState B D L × List Block :=
  let ids := (ops.ancestorIds st.rootBranch st.bestTip.node_id).drop
    (MAINNET_CANONICAL_THRESHOLD - 1)
  let taken := ids.takeWhile (fun i => !(i == oldId))
  match taken with
  | [] => (st, [])
  | first :: _ =>
    let firstBlock := ops.getBlock st.rootBranch first
    let blocks := taken.map (fun i => ops.getBlock st.rootBranch i)
    ({ st with canonicalTip := ⟨firstBlock.state_hash, first⟩ }, blocks.reverse)

/-- The per-block body of IndexerState::update_ledger_store: look the diff up
in the diffs map (the source unwraps with expect, so a missing diff panics —
the outer none), apply it, and store the resulting ledger at every height
divisible by 100. -/
def ledgerStoreLoop (diffs : List (String × D)) :
    List Block → L → IndexerStore L → Option (IndexerStore L)
  | [], _, store => some store
  | b :: rest, ledger, store =>
    match kvGet b.state_hash diffs with
    | none => none
    | some d =>
      let ledger2 := applyDiff ledger d
      let store2 :=
        if b.blockchain_length % 100 = 0 then
          IndexerStore.add_ledger b.state_hash ledger2 store
        else store
      ledgerStoreLoop diffs rest ledger2 store2

/-- IndexerState::update_ledger_store: load the ledger at the old canonical
tip (via the parent-walking get_ledger); when none is found, or when there is
no store, do nothing and report success; otherwise apply the new canonical
diffs in order, snapshotting at the configured cadence. -/
def update_ledger_store (st : IndexerState B D L) (oldHash : String)
    (canonicalBlocks : List Block) : Option (IndexerState B D L) :=
  match st.indexerStore with
  | none => some st
  | some store =>
    match get_ledger applyPB store oldHash with
    | none => some st
    | some ledger =>
      match ledgerStoreLoop applyDiff st.diffsMap canonicalBlocks ledger store with
      | none => none
      | some store2 => some { st with indexerStore := some store2 }

/-- Remove a key from an association list (HashMap::remove). -/
def kvRemove {α β : Type} [BEq α] (k : α) (m : List (α × β)) : List (α × β) :=
  m.filter (fun p => !(p.1 == k))

/-- IndexerState::clean_up_diffs_map: drop the diffs of every node at or
below the canonical tip height in the level-order traversal from the old
canonical tip. -/
def clean_up_diffs_map (st : IndexerState B D L) (oldId : NodeId) :
    IndexerState B D L :=
  let ctHeight := (canonicalTipBlock ops st).height
  (ops.levelOrderIds st.rootBranch oldId).foldl
    (fun st2 nid =>
      if (ops.getBlock st.rootBranch nid).height ≤ ctHeight then
        { st2 with
            diffsMap := kvRemove (ops.getBlock st.rootBranch nid).state_hash
              st2.diffsMap }
      else st2)
    st

/-- IndexerState::update_canonical: when the gap precondition holds, record
the old tip, collect the newly canonical blocks (moving the canonical tip),
materialise ledgers, clean the diffs map, and emit the update event. -/
def update_canonical (st : IndexerState B D L) :
    Option (IndexerState B D L × Option (List Block)) :=
  if is_canonical_updatable ops st then
    let oldId := st.canonicalTip.node_id
    let oldHash := (canonicalTipBlock ops st).state_hash
    let res := get_new_canonical_blocks ops st oldId
    match update_ledger_store applyDiff applyPB res.1 oldHash res.2 with
    | none => none
    | some st2 => some (clean_up_diffs_map ops st2 oldId, some res.2)
  else some (st, none)

/-- IndexerState::prune_root_branch: run update_canonical; when it advances,
prune the transition frontier once the root branch outgrows prune_interval
times k (the best tip block is read before pruning). -/
def prune_root_branch (st : IndexerState B D L) :
    Option (IndexerState B D L × Option (List Block)) :=
  let k := st.transitionFrontierLength
  match update_canonical ops applyDiff applyPB st with
  | none => none
  | some (st1, some ev) =>
    let st2 :=
      if st1.pruneInterval * k < ops.height st1.rootBranch then
        { st1 with
            rootBranch :=
              ops.pruneTransitionFrontier st1.rootBranch k (bestTipBlock ops st1) }
      else st1
    some (st2, some ev)
  | some (st1, none) => some (st1, none)

/-- String comparison used on state hashes (the Rust derive compares the
underlying strings). -/
def strGt (a b : String) : Bool :=
  decide (b < a)

/-- Modelled from the spec: the derived PartialOrd on the witness-tree Block
(absent block module) — the source compares blocks at one best-tip call
site; the spec notes length-then-hash ordering. -/
def blockGt (a b : Block) : Bool :=
  if a.blockchain_length = b.blockchain_length then
    strGt a.state_hash b.state_hash
  else decide (b.blockchain_length < a.blockchain_length)

/-- IndexerState::update_best_tip: conditionally adopt the incoming block as
best tip (one longer, or equal length and greater), then always re-read the
branch best tip with id. -/
def update_best_tip (st : IndexerState B D L) (incoming : Block)
    (nid : NodeId) : IndexerState B D L :=
  let btLen := (bestTipBlock ops st).blockchain_length
  let st1 :=
    if incoming.blockchain_length = btLen + 1 ∨
        (incoming.blockchain_length = btLen ∧
          blockGt incoming (bestTipBlock ops st)) then
      { st with bestTip := ⟨incoming.state_hash, nid⟩ }
    else st
  let idBlock := ops.bestTipWithId st1.rootBranch
  { st1 with bestTip := ⟨idBlock.2.state_hash, idBlock.1⟩ }

/-- is_reverse_extension (src/state/mod.rs): the block is the parent of the
branch root. -/
def is_reverse_extension (branch : B) (pb : PrecomputedBlock) : Bool :=
  pb.state_hash == (ops.rootBlock branch).parent_hash

/-- Keep the elements of a list whose index is not listed (the effect of the
ascending shifted Vec::remove loop of root_extension). -/
def removeIndices {α : Type} (l : List α) (idxs : List Nat) : List α :=
  (l.enum.filter (fun p => !(idxs.contains p.1))).map Prod.snd

/-- IndexerState::root_extension: try a simple extension of the root branch;
on success, merge in every dangling branch rooted at a child of the new
block (the merged tip id keeping the last merge result), possibly adopt the
merged tip as best tip, adopt the new block as best tip, drop the merged
branches, and report RootComplex when any branch was merged, else
RootSimple. -/
def root_extension (st : IndexerState B D L) (pb : PrecomputedBlock) :
    Option (ExtensionType × IndexerState B D L) :=
  match ops.simpleExtension st.rootBranch pb with
  | none => none
  | some (newId, newBlock, rb1) =>
    let scan := st.danglingBranches.foldl
      (fun (acc : Option NodeId × B × List Nat × Nat) db =>
        let (mtid, rb, toRemove, idx) := acc
        if is_reverse_extension ops db pb then
          let m := ops.mergeOn rb newId db
          (m.1, m.2, toRemove ++ [idx], idx + 1)
        else (mtid, rb, toRemove, idx + 1))
      (none, rb1, [], 0)
    let mergedTipId := scan.1
    let rb2 := scan.2.1
    let branchesToRemove := scan.2.2.1
    let st1 := { st with rootBranch := rb2 }
    let st2 :=
      match mergedTipId with
      | some mid =>
        let mblock := ops.getBlock st1.rootBranch mid
        if (bestTipBlock ops st1).blockchain_length < mblock.blockchain_length
            ∨ strGt mblock.state_hash (bestTipBlock ops st1).state_hash then
          update_best_tip ops st1 mblock mid
        else st1
      | none => st1
    let st3 := update_best_tip ops st2 newBlock newId
    let st4 :=
      { st3 with danglingBranches := removeIndices st3.danglingBranches branchesToRemove }
    if branchesToRemove.isEmpty then some (ExtensionType.RootSimple, st4)
    else some (ExtensionType.RootComplex, st4)

/-- The scan of IndexerState::dangling_extension over the dangling branches:
for the first branch within length bounds that extends in reverse (the block
becomes its new root) or forward, return its index, the new node id, the
direction, and the updated branch list. -/
def danglingExtensionLoop (pb : PrecomputedBlock) :
    List B → Nat → Option (Nat × NodeId × ExtensionDirection × List B)
  | [], _ => none
  | db :: rest, idx =>
    let minLength := (ops.rootBlock db).blockchain_length
    let maxLength := (ops.bestTipBlockOf db).blockchain_length
    if pb.blockchain_length ≤ maxLength + 1 ∧
        minLength ≤ pb.blockchain_length + 1 then
      if is_reverse_extension ops db pb then
        let db2 := ops.newRoot db pb
        some (idx, ops.rootNodeId db2, ExtensionDirection.Reverse, db2 :: rest)
      else
        match ops.simpleExtension db pb with
        | some (nid, _, db2) =>
          some (idx, nid, ExtensionDirection.Forward, db2 :: rest)
        | none =>
          match danglingExtensionLoop pb rest (idx + 1) with
          | some (i, n, dir, tail) => some (i, n, dir, db :: tail)
          | none => none
    else
      match danglingExtensionLoop pb rest (idx + 1) with
      | some (i, n, dir, tail) => some (i, n, dir, db :: tail)
      | none => none

/-- IndexerState::dangling_extension. -/
def dangling_extension (st : IndexerState B D L) (pb : PrecomputedBlock) :
    Option (Nat × NodeId × ExtensionDirection × IndexerState B D L) :=
  match danglingExtensionLoop ops pb st.danglingBranches 0 with
  | none => none
  | some (idx, nid, dir, branches) =>
    some (idx, nid, dir, { st with danglingBranches := branches })

/-- Remove the element at an index (Vec::remove). -/
def listRemoveAt {α : Type} (l : List α) (i : Nat) : List α :=
  l.take i ++ l.drop (i + 1)

/-- IndexerState::update_dangling: find every dangling branch whose root the
block parents; when none, the extension stays simple in its direction; when
some, pull out the extended branch, merge each found branch into it at the
new node (with the index arithmetic of the source), and push the merged
branch back, reporting DanglingComplex. -/
def update_dangling (st : IndexerState B D L) (pb : PrecomputedBlock)
    (extendedIdx : Nat) (newNodeId : NodeId) (direction : ExtensionDirection) :
    ExtensionType × IndexerState B D L :=
  let branchesToUpdate :=
    (st.danglingBranches.enum.filter
      (fun p => is_reverse_extension ops p.2 pb)).map Prod.fst
  if branchesToUpdate.isEmpty then
    (match direction with
      | ExtensionDirection.Forward => ExtensionType.DanglingSimpleForward
      | ExtensionDirection.Reverse => ExtensionType.DanglingSimpleReverse,
     st)
  else
    let extendedBranch := st.danglingBranches.getD extendedIdx default
    let rest := listRemoveAt st.danglingBranches extendedIdx
    let merged := (branchesToUpdate.enum.foldl
      (fun (acc : B × List B) p =>
        let n := p.1
        let di := p.2
        let index := if extendedIdx < di then di - n - 1 else di
        let target := acc.2.getD index default
        let m := ops.mergeOn acc.1 newNodeId target
        (m.2, listRemoveAt acc.2 index))
      (extendedBranch, rest))
    (ExtensionType.DanglingComplex,
     { st with danglingBranches := merged.2 ++ [merged.1] })

/-- IndexerState::new_dangling: spawn a one-block dangling branch. -/
def new_dangling (st : IndexerState B D L) (pb : PrecomputedBlock) :
    ExtensionType × IndexerState B D L :=
  (ExtensionType.DanglingNew,
   { st with danglingBranches := st.danglingBranches ++ [ops.branchNew pb] })

/-- IndexerState::is_length_within_root_bounds. -/
def is_length_within_root_bounds (st : IndexerState B D L)
    (pb : PrecomputedBlock) : Bool :=
  pb.blockchain_length ≤ (bestTipBlock ops st).blockchain_length + 1

/-- The dangling fallthrough of add_block_to_witness_tree: an existing
dangling branch extension, else a new dangling branch; either way the
witness-tree event is empty. -/
def addBlockDangling (st : IndexerState B D L) (pb : PrecomputedBlock) :
    ExtensionType × Option (List Block) × IndexerState B D L :=
  match dangling_extension ops st pb with
  | some (idx, nid, dir, st2) =>
    let r := update_dangling ops st2 pb idx nid dir
    (r.1, none, r.2)
  | none =>
    let r := new_dangling ops st pb
    (r.1, none, r.2)

/-- IndexerState::add_block_to_witness_tree: refuse (BlockNotAdded, no
event, state untouched) exactly when the block length is below the root
block length; otherwise count the block, record its diff, and extend the
root branch when within bounds (pruning afterwards), else a dangling
branch, else spawn a new one. -/
def add_block_to_witness_tree (st : IndexerState B D L)
    (pb : PrecomputedBlock) :
    Option (ExtensionType × Option (List Block) × IndexerState B D L) :=
  if pb.blockchain_length < (ops.rootBlock st.rootBranch).blockchain_length then
    some (ExtensionType.BlockNotAdded, none, st)
  else
    let st1 :=
      { st with
          blocksProcessed := st.blocksProcessed + 1
          diffsMap := kvPut pb.state_hash (diffOfBlock pb) st.diffsMap }
    if is_length_within_root_bounds ops st1 pb then
      match root_extension ops st1 pb with
      | some (ext, st2) =>
        match prune_root_branch ops applyDiff applyPB st2 with
        | none => none
        | some (st3, ev) => some (ext, ev, st3)
      | none => some (addBlockDangling ops st1 pb)
    else some (addBlockDangling ops st1 pb)

end StateMachine

/-! ### C6: witness-tree admission -/

theorem root_extension_kinds {B D L : Type} [Inhabited B] (ops : BranchOps B)
    (st : IndexerState B D L) (pb : PrecomputedBlock)
    (r : ExtensionType × IndexerState B D L)
    (h : root_extension ops st pb = some r) :
    r.1 = ExtensionType.RootSimple ∨ r.1 = ExtensionType.RootComplex := by
  unfold root_extension at h
  cases hse : ops.simpleExtension st.rootBranch pb with
  | none => rw [hse] at h; cases h
  | some v =>
    obtain ⟨newId, newBlock, rb1⟩ := v
    rw [hse] at h
    dsimp only at h
    split at h
    · cases h; exact Or.inl rfl
    · cases h; exact Or.inr rfl

theorem update_dangling_kind {B D L : Type} [Inhabited B] (ops : BranchOps B)
    (st : IndexerState B D L) (pb : PrecomputedBlock) (i : Nat) (n : NodeId)
    (dir : ExtensionDirection) :
    (update_dangling ops st pb i n dir).1 ≠ ExtensionType.BlockNotAdded := by
  unfold update_dangling
  dsimp only
  split
  · cases dir <;> simp
  · simp

theorem addBlockDangling_kind {B D L : Type} [Inhabited B] (ops : BranchOps B)
    (st : IndexerState B D L) (pb : PrecomputedBlock) :
    (addBlockDangling ops st pb).1 ≠ ExtensionType.BlockNotAdded := by
  unfold addBlockDangling
  cases hd : dangling_extension ops st pb with
  | none => simp [new_dangling]
  | some q =>
    obtain ⟨i, n, dir, st2⟩ := q
    dsimp only
    exact update_dangling_kind ops st2 pb i n dir

/-- C6: offering a block to the witness tree returns BlockNotAdded exactly
when its length is strictly below the root block length, and in that case
nothing is mutated — the state (root branch, dangling branches, diffs map,
best and canonical tips, blocks-processed counter) is returned untouched and
the witness-tree event is empty; the result holds for every branch
implementation. -/
theorem witness_tree_admission {B D L : Type} [Inhabited B]
    (ops : BranchOps B) (diffOfBlock : PrecomputedBlock → D)
    (applyDiff : L → D → L) (applyPB : L → PrecomputedBlock → L)
    (st : IndexerState B D L) (pb : PrecomputedBlock) :
    (pb.blockchain_length < (ops.rootBlock st.rootBranch).blockchain_length →
      add_block_to_witness_tree ops diffOfBlock applyDiff applyPB st pb =
        some (ExtensionType.BlockNotAdded, none, st)) ∧
    ((ops.rootBlock st.rootBranch).blockchain_length ≤ pb.blockchain_length →
      ∀ ext ev st2,
        add_block_to_witness_tree ops diffOfBlock applyDiff applyPB st pb =
          some (ext, ev, st2) → ext ≠ ExtensionType.BlockNotAdded) := by
  constructor
  · intro hlt
    unfold add_block_to_witness_tree
    rw [if_pos hlt]
  · intro hge ext ev st2 heq
    unfold add_block_to_witness_tree at heq
    rw [if_neg (Nat.not_lt.mpr hge)] at heq
    dsimp only at heq
    split at heq
    · split at heq
      · rename_i ext0 r hre
        split at heq
        · exact Option.noConfusion heq
        · rename_i st3 ev3 hpr
          simp only [Option.some.injEq, Prod.mk.injEq] at heq
          obtain ⟨h1, -, -⟩ := heq
          subst h1
          rcases root_extension_kinds ops _ pb (ext0, r) hre with h2 | h2 <;>
            simp only at h2 <;> simp [h2]
      · rename_i hre
        simp only [Option.some.injEq] at heq
        have h1 := congrArg Prod.fst heq
        show (ext, ev, st2).1 ≠ ExtensionType.BlockNotAdded
        rw [← h1]
        exact addBlockDangling_kind ops _ pb
    · simp only [Option.some.injEq] at heq
      have h1 := congrArg Prod.fst heq
      show (ext, ev, st2).1 ≠ ExtensionType.BlockNotAdded
      rw [← h1]
      exact addBlockDangling_kind ops _ pb

/-- C6 witness: a concrete two-type instantiation — branches carrying just a
root block, a block of length 1 offered to a tree rooted at length 5 — is
refused untouched; and the same instantiation accepts a block of length 5. -/
theorem witness_tree_admission_witness :
    (1 < 5 ∧
      add_block_to_witness_tree
        (B := Block) (D := Unit) (L := Unit)
        ⟨id, fun _ => 0, fun b _ => b, fun b => (0, b), id,
          fun _ _ => none, fun b _ => b, fun b _ _ => (none, b),
          fun pb => ⟨pb.state_hash, pb.previous_state_hash,
            pb.blockchain_length - 1, pb.blockchain_length⟩,
          fun _ _ => [], fun _ _ => [], fun b _ _ => b, fun _ => 1⟩
        (fun _ => ()) (fun _ _ => ()) (fun _ _ => ())
        ⟨⟨"3NRoot", 0⟩, ⟨"3NRoot", 0⟩, [], ⟨"3NRoot", "3NPrev", 4, 5⟩, [],
          none, 10, 10, 10, 0⟩
        ⟨none, "3NLow", 1, "3NPrevLow"⟩ =
      some (ExtensionType.BlockNotAdded, none,
        ⟨⟨"3NRoot", 0⟩, ⟨"3NRoot", 0⟩, [], ⟨"3NRoot", "3NPrev", 4, 5⟩, [],
          none, 10, 10, 10, 0⟩)) ∧
    (5 ≤ 5 ∧
      ∀ ext ev st2,
        add_block_to_witness_tree
          (B := Block) (D := Unit) (L := Unit)
          ⟨id, fun _ => 0, fun b _ => b, fun b => (0, b), id,
            fun _ _ => none, fun b _ => b, fun b _ _ => (none, b),
            fun pb => ⟨pb.state_hash, pb.previous_state_hash,
              pb.blockchain_length - 1, pb.blockchain_length⟩,
            fun _ _ => [], fun _ _ => [], fun b _ _ => b, fun _ => 1⟩
          (fun _ => ()) (fun _ _ => ()) (fun _ _ => ())
          ⟨⟨"3NRoot", 0⟩, ⟨"3NRoot", 0⟩, [], ⟨"3NRoot", "3NPrev", 4, 5⟩, [],
            none, 10, 10, 10, 0⟩
          ⟨none, "3NSame", 5, "3NPrev"⟩ =
          some (ext, ev, st2) → ext ≠ ExtensionType.BlockNotAdded) :=
  ⟨⟨by decide,
    (witness_tree_admission _ _ _ _ _ _).1 (by decide)⟩,
   ⟨by decide,
    (witness_tree_admission _ _ _ _ _ _).2 (by decide)⟩⟩

/-! ## A concrete branch arena

Modelled from the spec (design note: arena plus integer id is the preferred
representation of a witness-tree branch; branch.rs and the id_tree crate are
absent from the corpus).  Nodes carry an id, an optional parent id and a
block; ancestor traversal is the parent walk, fueled by the arena size. -/

structure ArenaNode where
  nid : Nat
  parent : Option Nat
  block : Block
deriving DecidableEq

/-- A branch as an arena of nodes. -/
abbrev Arena := List ArenaNode

instance : Inhabited Arena := ⟨[]⟩

def arenaFind (a : Arena) (n : Nat) : Option ArenaNode :=
  a.find? (fun nd => nd.nid == n)

/-- Node data lookup; the source unwraps, so a missing id yields the default
block. -/
def arenaGetBlock (a : Arena) (n : Nat) : Block :=
  match arenaFind a n with
  | some nd => nd.block
  | none => default

/-- The parent walk from a node, oldest fuel bound: each step follows the
parent link, as id_tree ancestor_ids does (parent first). -/
def arenaAncestorsGo (a : Arena) : Nat → Nat → List Nat
  | 0, _ => []
  | fuel + 1, n =>
    match arenaFind a n with
    | some nd =>
      match nd.parent with
      | some p => p :: arenaAncestorsGo a fuel p
      | none => []
    | none => []

def arenaAncestors (a : Arena) (n : Nat) : List Nat :=
  arenaAncestorsGo a a.length n

def arenaRootNode (a : Arena) : Option ArenaNode :=
  a.find? (fun nd => nd.parent.isNone)

/-- A fresh id: one past the largest id in use. -/
def arenaFreshId (a : Arena) : Nat :=
  (a.map ArenaNode.nid).foldr max 0 + 1

/-- The witness-tree block summary of a precomputed block (height is the
distance above genesis, length minus one). -/
def blockOfPb (pb : PrecomputedBlock) : Block :=
  ⟨pb.state_hash, pb.previous_state_hash, pb.blockchain_length - 1,
   pb.blockchain_length⟩

def arenaIsLeaf (a : Arena) (n : Nat) : Bool :=
  !(a.any (fun nd => nd.parent == some n))

/-- The branch best tip: the leaf greatest by (length, state hash). -/
def arenaBestTip (a : Arena) : Nat × Block :=
  a.foldl
    (fun acc nd =>
      if arenaIsLeaf a nd.nid && blockGt nd.block acc.2 then (nd.nid, nd.block)
      else acc)
    (match arenaRootNode a with
      | some nd => (nd.nid, nd.block)
      | none => (0, default))

def arenaChildren (a : Arena) (n : Nat) : List Nat :=
  (a.filter (fun nd => nd.parent == some n)).map ArenaNode.nid

/-- Fueled breadth-first traversal for level-order ids. -/
def arenaLevelGo (a : Arena) : Nat → List Nat → List Nat
  | 0, _ => []
  | fuel + 1, frontier =>
    match frontier with
    | [] => []
    | _ => frontier ++ arenaLevelGo a fuel (frontier.flatMap (arenaChildren a))

/-- The BranchOps instance over arenas; the spec 4.2 operation descriptions
fill in what branch.rs would: simple extension hangs the block under its
parent when present, new_root prepends the block above the old root,
merge_on grafts a relabelled branch under a node and reports its best tip,
pruning keeps the k heights below the best tip. -/
def arenaOps : BranchOps Arena where
  rootBlock a := match arenaRootNode a with
    | some nd => nd.block
    | none => default
  rootNodeId a := match arenaRootNode a with
    | some nd => nd.nid
    | none => 0
  getBlock := arenaGetBlock
  bestTipWithId := arenaBestTip
  bestTipBlockOf a := (arenaBestTip a).2
  simpleExtension a pb :=
    match a.find? (fun nd => nd.block.state_hash == pb.previous_state_hash) with
    | some parentNode =>
      let newId := arenaFreshId a
      some (newId, blockOfPb pb,
        ⟨newId, some parentNode.nid, blockOfPb pb⟩ :: a)
    | none => none
  newRoot a pb :=
    let newId := arenaFreshId a
    ⟨newId, none, blockOfPb pb⟩ ::
      a.map (fun nd =>
        if nd.parent.isNone then { nd with parent := some newId } else nd)
  mergeOn a n b :=
    let offset := arenaFreshId a
    let shifted := b.map (fun nd =>
      ⟨nd.nid + offset,
       match nd.parent with
       | some p => some (p + offset)
       | none => some n,
       nd.block⟩)
    (some ((arenaBestTip b).1 + offset), a ++ shifted)
  branchNew pb := [⟨1, none, blockOfPb pb⟩]
  ancestorIds := arenaAncestors
  levelOrderIds a n := arenaLevelGo a (a.length + 1) [n]
  pruneTransitionFrontier a k tip :=
    a.filter (fun nd => tip.height - k ≤ nd.block.height)
  height a :=
    (a.map (fun nd => (arenaAncestors a nd.nid).length)).foldr max 0 + 1

/-! ### C3: canonical tip height -/

/-- The 21-node chain arena: node i (1 to 21) has parent i-1 and height i. -/
def chainArena : Arena :=
  (List.range 21).map (fun i =>
    ⟨i + 1, if i = 0 then none else some i,
     ⟨"h" ++ toString (i + 1), "h" ++ toString i, i + 1, i + 1⟩⟩)

/-- The state for the C3 counterexample: best tip at node 21 (height 21),
canonical tip at node 1 (height 1), constructed with transition frontier
length (k) 5. -/
def chainState : IndexerState Arena Unit Unit :=
  { bestTip := ⟨"h21", 21⟩
    canonicalTip := ⟨"h1", 1⟩
    diffsMap := []
    rootBranch := chainArena
    danglingBranches := []
    indexerStore := none
    transitionFrontierLength := 5
    pruneInterval := 10
    canonicalUpdateThreshold := 10
    blocksProcessed := 0 }

/-- C3 counterexample.  On a 21-block chain in a state constructed with
k = 5, advancing the canonical tip moves it to height 11 — the ancestor
MAINNET_CANONICAL_THRESHOLD (10) levels below the best tip — which is
neither best_tip.height - k + 1 = 17 (the claim with the state's k) nor
best_tip.height - 10 + 1 = 12 (the claim with the constant). -/
theorem canonical_tip_height_counterexample :
    (arenaGetBlock chainArena
        (get_new_canonical_blocks arenaOps chainState 1).1.canonicalTip.node_id).height
        = 11 ∧
    chainState.transitionFrontierLength = 5 ∧
    (bestTipBlock arenaOps chainState).height = 21 ∧
    (11 : Nat) ≠ 21 - 5 + 1 ∧ (11 : Nat) ≠ 21 - 10 + 1 := by
  refine ⟨?_, rfl, ?_, ?_, ?_⟩ <;> decide

/-- C3 (amended): whenever get_new_canonical_blocks advances the tip — the
best tip has at least MAINNET_CANONICAL_THRESHOLD ancestors and the one that
many levels down is not the old canonical tip — the new canonical tip is
that ancestor of the best tip within the root branch, so when ancestor
heights descend by one from the best tip its height equals
best_tip.height - MAINNET_CANONICAL_THRESHOLD: the offset is the fixed
constant 10, not the k the state was constructed with, and without the
plus-one of the claim. -/
theorem get_new_canonical_blocks_spec {B D L : Type} [Inhabited B]
    (ops : BranchOps B) (st : IndexerState B D L) (oldId : NodeId)
    (first : NodeId) (rest : List NodeId)
    (hdrop : (ops.ancestorIds st.rootBranch st.bestTip.node_id).drop
        (MAINNET_CANONICAL_THRESHOLD - 1) = first :: rest)
    (hne : first ≠ oldId)
    (hdesc : ∀ i, i < (ops.ancestorIds st.rootBranch st.bestTip.node_id).length →
      (ops.getBlock st.rootBranch
          ((ops.ancestorIds st.rootBranch st.bestTip.node_id).getD i 0)).height
        + (i + 1) = (bestTipBlock ops st).height) :
    (get_new_canonical_blocks ops st oldId).1.canonicalTip.node_id = first ∧
    first ∈ ops.ancestorIds st.rootBranch st.bestTip.node_id ∧
    (ops.getBlock st.rootBranch first).height + MAINNET_CANONICAL_THRESHOLD =
      (bestTipBlock ops st).height := by
  have hlen : MAINNET_CANONICAL_THRESHOLD - 1 <
      (ops.ancestorIds st.rootBranch st.bestTip.node_id).length := by
    by_contra hc
    rw [List.drop_eq_nil_of_le (Nat.le_of_not_lt hc)] at hdrop
    cases hdrop
  have hget : (ops.ancestorIds st.rootBranch st.bestTip.node_id).getD
      (MAINNET_CANONICAL_THRESHOLD - 1) 0 = first := by
    have h1 : ((ops.ancestorIds st.rootBranch st.bestTip.node_id).drop
        (MAINNET_CANONICAL_THRESHOLD - 1)).getD 0 0 = first := by
      rw [hdrop]; rfl
    rwa [List.getD_eq_getElem?_getD, List.getElem?_drop, Nat.add_zero,
      ← List.getD_eq_getElem?_getD] at h1
  have hmem : first ∈ ops.ancestorIds st.rootBranch st.bestTip.node_id :=
    List.drop_subset _ _ (hdrop ▸ List.mem_cons_self first rest)
  have hbeq : (first == oldId) = false := by
    simp [hne]
  refine ⟨?_, hmem, ?_⟩
  · unfold get_new_canonical_blocks
    rw [hdrop]
    simp only [List.takeWhile_cons, hbeq, Bool.not_false, if_true]
  · have h2 := hdesc (MAINNET_CANONICAL_THRESHOLD - 1) hlen
    rw [hget] at h2
    have h3 : MAINNET_CANONICAL_THRESHOLD - 1 + 1 = MAINNET_CANONICAL_THRESHOLD := by
      decide
    omega

/-- C3 witness: on the 21-chain state, the MAINNET_CANONICAL_THRESHOLD-th
ancestor of the best tip is node 11, which is not the old canonical tip
(node 1), ancestor heights descend by one, and the theorem places the new
canonical tip there, at height 21 - 10. -/
theorem get_new_canonical_blocks_spec_witness :
    (get_new_canonical_blocks arenaOps chainState 1).1.canonicalTip.node_id = 11 ∧
    (11 : NodeId) ∈ arenaOps.ancestorIds chainState.rootBranch chainState.bestTip.node_id ∧
    (arenaOps.getBlock chainState.rootBranch 11).height + MAINNET_CANONICAL_THRESHOLD =
      (bestTipBlock arenaOps chainState).height :=
  get_new_canonical_blocks_spec arenaOps chainState 1 11
    [10, 9, 8, 7, 6, 5, 4, 3, 2, 1] (by decide) (by decide) (by decide)

/-! ### C10: silent skip of ledger materialisation -/

/-- A store with a ledger snapshot at 3NP only, plus the block 3NB whose
parent is 3NP: no snapshot is stored at 3NB itself. -/
def ceStore : IndexerStore Nat :=
  ⟨[("3NB", ⟨none, "3NB", 5, "3NP"⟩)], [], none, [("3NP", 0)], [], none⟩

/-- A state holding ceStore and the diff of the newly canonical block 3NC. -/
def ceLedgerState : IndexerState Arena Unit Nat :=
  ⟨⟨"", 0⟩, ⟨"", 0⟩, [("3NC", ())], [], [], some ceStore, 10, 10, 10, 0⟩

/-- C10 counterexample.  The claim's hypothesis — no ledger snapshot stored
at the old canonical tip's state hash — does not make update_ledger_store
skip: get_ledger walks parent links, reconstructs the ledger from the
snapshot at the tip's ancestor 3NP, and the newly canonical diff is applied
and (at the 100-cadence) a snapshot is written, here counted by a ledger
model that increments per applied diff: the snapshot stored at 3NC holds 1
applied diff. -/
theorem update_ledger_store_counterexample :
    kvGet "3NB" ceStore.ledgers = none ∧
    (Option.bind
      (update_ledger_store (fun (l : Nat) (_ : Unit) => l + 1)
        (fun (l : Nat) (_ : PrecomputedBlock) => l) ceLedgerState "3NB"
        [⟨"3NC", "3NB", 99, 100⟩])
      (fun st2 => Option.bind st2.indexerStore
        (fun s => kvGet "3NC" s.ledgers))) = some 1 := by
  constructor <;> decide

/-- C10 (amended): when the parent walk of get_ledger from the old canonical
tip's hash reaches a hash that is neither a stored ledger nor a stored block
— so no ledger is found at all — update_ledger_store applies none of the
newly canonical diffs, writes no ledger snapshot, and still returns success
with the state untouched; the missing materialisation is silently skipped
rather than reported as an error. -/
theorem update_ledger_store_skips {B D L : Type}
    (applyDiff : L → D → L) (applyPB : L → PrecomputedBlock → L)
    (st : IndexerState B D L) (oldHash : String) (blocks : List Block)
    (store : IndexerStore L) (hs : st.indexerStore = some store)
    (hl : get_ledger applyPB store oldHash = none) :
    update_ledger_store applyDiff applyPB st oldHash blocks = some st := by
  unfold update_ledger_store
  rw [hs]
  dsimp only
  rw [hl]

/-- C10 witness: a fresh (empty) store holds neither a ledger nor a block at
3NX, so updating the ledger store over any newly canonical blocks returns
the state unchanged. -/
theorem update_ledger_store_skips_witness :
    update_ledger_store (fun (l : Nat) (_ : Unit) => l + 1)
      (fun (l : Nat) (_ : PrecomputedBlock) => l)
      (⟨⟨"", 0⟩, ⟨"", 0⟩, [], ([] : Arena), [], some (freshStore Nat), 10, 10, 10, 0⟩ :
        IndexerState Arena Unit Nat) "3NX" [⟨"3NC", "3NB", 99, 100⟩] =
      some ⟨⟨"", 0⟩, ⟨"", 0⟩, [], ([] : Arena), [], some (freshStore Nat), 10, 10, 10, 0⟩ :=
  update_ledger_store_skips _ _ _ "3NX" _ (freshStore Nat) rfl (by decide)

/-! ## Canonical-chain discovery
(rust/src/canonicity/canonical_chain_discovery.rs)

A block path is modelled by what the code extracts from it: the optional
height parsed from the file name (extract_block_height), the state hash from
the file name (extract_state_hash), and the previous state hash read from
the file body (PreviousStateHash::from_path, which can fail) — these helper
functions live in the absent block module and are modelled from the spec as
field reads.  State hashes are an opaque type with decidable equality. -/

/-- What discovery reads from one block path. -/
structure BlockPath (H : Type) where
  height : Option Nat
  hash : H
  prev : Option H
deriving DecidableEq

instance {H : Type} [Inhabited H] : Inhabited (BlockPath H) :=
  ⟨⟨none, default, none⟩⟩

/-- u32::MAX, the sort key of a path with no parseable length. -/
def U32MAX : Nat := 4294967295

/-- extract_block_height_or_max. -/
def heightOrMax {H : Type} (p : BlockPath H) : Nat :=
  p.height.getD U32MAX

/-- Stable insertion of an element into a key-sorted list: the element goes
before the first strictly greater key, after equal keys seen earlier. -/
def insertKey {α : Type} (key : α → Nat) (x : α) : List α → List α
  | [] => [x]
  | y :: ys => if key y < key x then y :: insertKey key x ys else x :: y :: ys

/-- Stable sort by a Nat key (sort_by_cached_key is a stable sort; any two
stable sorts by the same key agree, so insertion sort embeds it exactly). -/
def sortByKey {α : Type} (key : α → Nat) : List α → List α
  | [] => []
  | x :: xs => insertKey key x (sortByKey key xs)

/-- Rust Iterator::position. -/
def listPosition {α : Type} (p : α → Bool) : List α → Option Nat
  | [] => none
  | a :: l => if p a then some 0 else (listPosition p l).map (· + 1)

/-- The one-pass (start_index, length_gap) accumulation loop of discovery:
an entry is pushed at index 0 and whenever the length strictly grows. -/
def lsiGo {H : Type} (curr : Nat) : List (BlockPath H) → Nat → List (Nat × Nat)
  | [], _ => []
  | p :: rest, idx =>
    let length := heightOrMax p
    if length > curr ∨ idx = 0 then
      (idx, length - curr) :: lsiGo length rest (idx + 1)
    else lsiGo curr rest (idx + 1)

/-- length_start_indices_and_diffs, seeded with the first path's length. -/
def lengthStartIndicesAndDiffs {H : Type} (paths : List (BlockPath H)) :
    List (Nat × Nat) :=
  match paths with
  | [] => []
  | p :: _ => lsiGo (heightOrMax p) paths 0

/-- last_contiguous_first_noncontiguous_start_idx: the first entry whose gap
exceeds one, paired with the previous entry's start index (prev starts 0). -/
def lastContigGo (prev : Nat) : List (Nat × Nat) → Option (Nat × Nat)
  | [] => none
  | (idx, diff) :: rest =>
    if diff > 1 then some (prev, idx) else lastContigGo idx rest

/-- is_parent: the candidate's hash equals the current block's previous
state hash (a failed previous-hash read compares false). -/
def is_parent {H : Type} [BEq H] (path curr : BlockPath H) : Bool :=
  match curr.prev with
  | some ph => ph == path.hash
  | none => false

/-- The inner segment scan of find_witness_tree_root (the for loop with
continue): every matching candidate updates the offset, the current path,
the current length index (to the segment start) and decrements the current
start index, and marks the parent found. -/
def segScan {H : Type} [BEq H] (seg : List (BlockPath H)) (prevStart : Nat)
    (off : Nat) (cp : BlockPath H) (cli csi : Nat) :
    Nat × BlockPath H × Nat × Nat × Bool :=
  seg.enum.foldl
    (fun acc ip =>
      if is_parent ip.2 acc.2.1 then (ip.1, ip.2, prevStart, acc.2.2.2.1 - 1, true)
      else acc)
    (off, cp, cli, csi, false)

/-- Outcome of one run of the 1..=threshold loop of find_witness_tree_root:
the loop completes (root found at length index plus offset), restarts one
height lower, or fails. -/
inductive FwtrStep where
  | done (lengthIdx startIdx : Nat)
  | restart (startIdx lengthIdx : Nat)
  | failed
deriving DecidableEq

/-- The 1..=threshold loop of find_witness_tree_root, by remaining
iterations: each iteration scans the previous segment for a parent of the
current block; no parent restarts the search one height lower when enough
heights remain, else fails. -/
def fwtrLoop {H : Type} [BEq H] (paths : List (BlockPath H))
    (entries : List (Nat × Nat)) (threshold : Nat) :
    Nat → Nat → BlockPath H → Nat → Nat → FwtrStep
  | 0, off, _, cli, csi => FwtrStep.done (cli + off) csi
  | m + 1, off, cp, cli, csi =>
    let prevStart := if 0 < csi then (entries.getD (csi - 1) (0, 0)).1 else 0
    let seg := (paths.drop prevStart).take (cli - prevStart)
    let scan := segScan seg prevStart off cp cli csi
    if scan.2.2.2.2 then
      fwtrLoop paths entries threshold m scan.1 scan.2.1 scan.2.2.1 scan.2.2.2.1
    else if threshold < csi then FwtrStep.restart (csi - 1) prevStart
    else FwtrStep.failed

/-- find_witness_tree_root: refuse when there are no more distinct heights
than the threshold, otherwise run the loop from the given position,
restarting as directed.  Each restart strictly decreases the start index,
so fuel exceeding the initial start index is never exhausted (the none on
fuel 0 is unreachable at the call site). -/
def find_witness_tree_root {H : Type} [BEq H] [Inhabited H]
    (paths : List (BlockPath H)) (entries : List (Nat × Nat))
    (threshold : Nat) : Nat → Nat → Nat → Option (Nat × Nat)
  | 0, _, _ => none
  | fuel + 1, csi, cli =>
    if entries.length ≤ threshold then none
    else
      match fwtrLoop paths entries threshold threshold 0
          (paths.getD cli default) cli csi with
      | FwtrStep.done li si => some (li, si)
      | FwtrStep.restart s l => find_witness_tree_root paths entries threshold fuel s l
      | FwtrStep.failed => none

/-- max_num_canonical_blocks. -/
def maxNumCanonical (entries : List (Nat × Nat)) (lastContigStart : Nat) : Nat :=
  (listPosition (fun x => x.1 == lastContigStart) entries).getD 0 + 1

/-- next_length_start_index: the index of the first path, at or after the
given one, with a strictly larger length. -/
def next_length_start_index {H : Type} [Inhabited H]
    (paths : List (BlockPath H)) (pathIdx : Nat) : Option Nat :=
  let length := heightOrMax (paths.getD pathIdx default)
  match listPosition (fun p => length < heightOrMax p) (paths.drop pathIdx) with
  | some n => some (pathIdx + n)
  | none => none

/-- The descent loop of discovery (while curr_start_idx greater than 0):
search the previous segment for the parent of the current block — the
previous-hash read propagates failure — appending each match to the deep
list and hash set; a missing parent abandons discovery (the inner none). -/
def descend {H : Type} [BEq H] [Inhabited H] (paths : List (BlockPath H))
    (entries : List (Nat × Nat)) :
    Nat → Nat → BlockPath H → List (BlockPath H) → List H →
    Except String (Option (List (BlockPath H) × List H × Nat × BlockPath H))
  | 0, cli, cp, deep, hs => Except.ok (some (deep, hs, cli, cp))
  | csi + 1, cli, cp, deep, hs =>
    let prevLengthIdx := (entries.getD csi (0, 0)).1
    match cp.prev with
    | none => Except.error "PreviousStateHash::from_path"
    | some parentHash =>
      let seg := (paths.drop prevLengthIdx).take (cli - prevLengthIdx)
      match seg.find? (fun path => parentHash == path.hash) with
      | some path =>
        descend paths entries csi prevLengthIdx path (deep ++ [path])
          (hs ++ [path.hash])
      | none => Except.ok none

/-- The push-the-lowest-canonical-block loop after the descent: scan the
paths below the final length index for the parent of the final block
(re-reading its previous hash, with failure propagation) and append the
first match. -/
def lowestScan {H : Type} [BEq H] (cp : BlockPath H) :
    List (BlockPath H) → List (BlockPath H) → List H →
    Except String (List (BlockPath H) × List H)
  | [], deep, hs => Except.ok (deep, hs)
  | path :: rest, deep, hs =>
    match cp.prev with
    | none => Except.error "PreviousStateHash::from_path"
    | some ph =>
      if ph == path.hash then Except.ok (deep ++ [path], hs ++ [path.hash])
      else lowestScan cp rest deep hs

/-- The recent-paths selection of discovery: everything from the first index
above the root, provided that index lies below the start of the highest
length group. -/
def recentOf {H : Type} [Inhabited H] (paths : List (BlockPath H))
    (rootIdx lastIdx : Nat) : List (BlockPath H) :=
  match next_length_start_index paths rootIdx with
  | some rsi => if rsi < lastIdx then paths.drop rsi else []
  | none => []

/-- The maximum canonical length: the height of the last (highest) deep
canonical path, defaulting to 1 (genesis). -/
def maxCanonOf {H : Type} (deepR : List (BlockPath H)) : Nat :=
  ((deepR.getLast?).bind (fun p => p.height)).getD 1

/-- The orphaned classification of discovery: paths with a parseable length
at or below the canonical tip whose hash is not deep-canonical. -/
def orphanedOf {H : Type} [BEq H] (paths : List (BlockPath H))
    (maxCanon : Nat) (hs2 : List H) : List (BlockPath H) :=
  paths.filter (fun p =>
    match p.height with
    | some l => decide (l ≤ maxCanon) && !(hs2.contains p.hash)
    | none => false)

/-- discovery: sort by length, filter, find the lowest contiguous chain and
the witness-tree root, split off the recent paths above the root, walk the
canonical chain down to the lowest block, and classify the orphaned
remainder.  The reporting frequency only drives logging and is unused. -/
def discovery {H : Type} [BEq H] [Inhabited H] (minLen maxLen : Option Nat)
    (canonicalThreshold : Nat) (reportingFreq : Nat)
    (paths0 : List (BlockPath H)) :
    Except String (List (BlockPath H) × List (BlockPath H) × List (BlockPath H)) :=
  if paths0.isEmpty then Except.ok ([], [], [])
  else
    let sorted := sortByKey heightOrMax paths0
    let f1 := match maxLen with
      | some m => sorted.filter (fun p => heightOrMax p ≤ m)
      | none => sorted
    let paths := match minLen with
      | some m => f1.filter (fun p => m ≤ heightOrMax p)
      | none => f1
    if paths.isEmpty then Except.ok ([], [], [])
    else
      let entries := lengthStartIndicesAndDiffs paths
      let lcfn := lastContigGo 0 entries
      let lastContigStart := match lcfn with
        | some i => i.1
        | none => ((entries.getLast?).getD (0, 0)).1
      let lastContigIdx := match lcfn with
        | some i => i.2 - 1
        | none => paths.length - 1
      let startPos := (listPosition (fun x => x.1 == lastContigStart) entries).getD 0
      let rootOpt := find_witness_tree_root paths entries canonicalThreshold
        (startPos + 1) startPos lastContigIdx
      if rootOpt.isNone ∨ maxNumCanonical entries lastContigStart < canonicalThreshold
      then Except.ok ([], paths, [])
      else
        match rootOpt with
        | none => Except.ok ([], paths, [])
        | some (rootIdx, rootStartIdx) =>
          let rootPath := paths.getD rootIdx default
          let recent := recentOf paths rootIdx (((entries.getLast?).getD (0, 0)).1)
          match descend paths entries rootStartIdx rootIdx rootPath [rootPath]
              [rootPath.hash] with
          | Except.error e => Except.error e
          | Except.ok none => Except.ok ([], paths, [])
          | Except.ok (some (deep, hs, cliFinal, cp)) =>
            match lowestScan cp (paths.take cliFinal) deep hs with
            | Except.error e => Except.error e
            | Except.ok (deep2, hs2) =>
              let deepR := deep2.reverse
              let orphaned := orphanedOf paths (maxCanonOf deepR) hs2
              Except.ok (deepR, recent, orphaned)

/-! ### C2: discovery on a contiguous parent chain -/

/-- C2 counterexample.  With canonical threshold 1 and the three-block chain
of heights 2, 3, 4 (each linking to its predecessor), the witness-tree root
is the block of height 3, yet discovery returns recent = [] — the block of
height 4, strictly above the root, lands in no output list — refuting the
claim that recent holds the blocks strictly above the witness-tree root. -/
theorem discovery_k1_drops_recent :
    discovery (H := Nat) none none 1 10
        [⟨some 2, 2, some 1⟩, ⟨some 3, 3, some 2⟩, ⟨some 4, 4, some 3⟩] =
      Except.ok ([⟨some 2, 2, some 1⟩, ⟨some 3, 3, some 2⟩], [], []) := rfl

/-! ### List helpers for the discovery proof -/

theorem drop_eq_getD_cons {α : Type} (l : List α) (i : Nat) (d : α)
    (h : i < l.length) : l.drop i = l.getD i d :: l.drop (i + 1) := by
  induction l generalizing i with
  | nil => simp at h
  | cons a t ih =>
    cases i with
    | zero => simp [List.getD]
    | succ j =>
      have hj : j < t.length := by simpa using h
      simpa [List.getD_cons_succ] using ih j hj

theorem getLast?_eq_getD {α : Type} (l : List α) (d : α) (h : l ≠ []) :
    l.getLast? = some (l.getD (l.length - 1) d) := by
  induction l with
  | nil => exact absurd rfl h
  | cons a t ih =>
    cases t with
    | nil => rfl
    | cons b t2 =>
      rw [List.getLast?_cons_cons, ih (by simp)]
      simp [List.getD_cons_succ]

theorem sortByKey_sorted_id {α : Type} (key : α → Nat) (d : α)
    (l : List α)
    (hs : ∀ i, i + 1 < l.length → key (l.getD i d) ≤ key (l.getD (i + 1) d)) :
    sortByKey key l = l := by
  induction l with
  | nil => rfl
  | cons a t ih =>
    have ht : sortByKey key t = t := by
      apply ih
      intro i hi
      have := hs (i + 1) (by simpa using Nat.succ_lt_succ hi)
      simpa [List.getD_cons_succ] using this
    show insertKey key a (sortByKey key t) = a :: t
    rw [ht]
    cases t with
    | nil => rfl
    | cons b t2 =>
      have hab : key a ≤ key b := by
        simpa [List.getD] using hs 0 (by simp)
      show insertKey key a (b :: t2) = a :: b :: t2
      unfold insertKey
      rw [if_neg (Nat.not_lt.mpr hab)]

theorem map_range'_getD {α : Type} (f : Nat → α) (d : α) :
    ∀ (len s m : Nat), m < len →
      ((List.range' s len).map f).getD m d = f (s + m) := by
  intro len
  induction len with
  | zero => intro s m h; simp at h
  | succ k ih =>
    intro s m h
    rw [List.range'_succ]
    cases m with
    | zero => simp [List.getD]
    | succ j =>
      have hj : j < k := by omega
      simp only [List.map_cons, List.getD_cons_succ]
      rw [ih (s + 1) j hj]
      congr 1
      omega

theorem listPosition_map_range' (t : Nat) :
    ∀ (len s : Nat), s ≤ t → t < s + len →
      listPosition (fun x => x.1 == t)
        ((List.range' s len).map (fun j => (j, 1))) = some (t - s) := by
  intro len
  induction len with
  | zero => intro s h1 h2; omega
  | succ k ih =>
    intro s h1 h2
    rw [List.range'_succ]
    simp only [List.map_cons]
    unfold listPosition
    by_cases hst : s = t
    · subst hst
      simp
    · have hb : (s == t) = false := by simp [hst]
      simp only [hb, Bool.false_eq_true, if_false]
      rw [ih (s + 1) (by omega) (by omega)]
      simp
      omega

/-! ### Discovery on an exact parent chain: the length-entry pass -/

section ChainProof

variable {H : Type} [BEq H] [LawfulBEq H] [Inhabited H]
variable (chain : List (BlockPath H)) (L0 : Nat)

/-- Heights on the chain: block i carries height L0 + i. -/
abbrev ChainHeights : Prop :=
  ∀ i, i < chain.length → (chain.getD i default).height = some (L0 + i)

/-- Parent links on the chain: block i + 1 points at block i. -/
abbrev ChainLinks : Prop :=
  ∀ i, i + 1 < chain.length →
    (chain.getD (i + 1) default).prev = some ((chain.getD i default).hash)

theorem chain_key (hh : ChainHeights chain L0) (i : Nat)
    (hi : i < chain.length) :
    heightOrMax (chain.getD i default) = L0 + i := by
  unfold heightOrMax
  rw [hh i hi]
  rfl

theorem lsiGo_suffix (hh : ChainHeights chain L0) :
    ∀ (k i : Nat), i + k = chain.length → 1 ≤ i →
      lsiGo (L0 + (i - 1)) (chain.drop i) i =
        (List.range' i k).map (fun j => (j, 1)) := by
  intro k
  induction k with
  | zero =>
    intro i hik _
    rw [List.drop_eq_nil_of_le (by omega)]
    rfl
  | succ k2 ih =>
    intro i hik h1
    have hi : i < chain.length := by omega
    rw [drop_eq_getD_cons chain i default hi]
    show lsiGo (L0 + (i - 1)) (chain.getD i default :: chain.drop (i + 1)) i = _
    unfold lsiGo
    dsimp only
    rw [chain_key chain L0 hh i hi]
    rw [if_pos (Or.inl (by omega))]
    have hsub : L0 + i - (L0 + (i - 1)) = 1 := by omega
    rw [hsub]
    have hrec := ih (i + 1) (by omega) (by omega)
    have hidx : i + 1 - 1 = i := by omega
    rw [hidx] at hrec
    rw [hrec, List.range'_succ]
    rfl

theorem entries_closed (hh : ChainHeights chain L0) (hn : 1 ≤ chain.length) :
    lengthStartIndicesAndDiffs chain =
      (0, 0) :: (List.range' 1 (chain.length - 1)).map (fun j => (j, 1)) := by
  have hsplit : chain = chain.getD 0 default :: chain.drop 1 := by
    simpa using drop_eq_getD_cons chain 0 default (by omega)
  conv_lhs => rw [hsplit]
  show lsiGo (heightOrMax (chain.getD 0 default))
      (chain.getD 0 default :: chain.drop 1) 0 = _
  rw [chain_key chain L0 hh 0 (by omega)]
  unfold lsiGo
  dsimp only
  rw [chain_key chain L0 hh 0 (by omega)]
  rw [if_pos (Or.inr rfl)]
  rw [Nat.sub_self, Nat.add_zero]
  by_cases h1 : chain.length = 1
  · rw [List.drop_eq_nil_of_le (by omega)]
    rw [h1]
    rfl
  · have hrec := lsiGo_suffix chain L0 hh (chain.length - 1) 1 (by omega) (by omega)
    simpa using hrec

theorem entries_length (hh : ChainHeights chain L0) (hn : 1 ≤ chain.length) :
    (lengthStartIndicesAndDiffs chain).length = chain.length := by
  rw [entries_closed chain L0 hh hn]
  simp
  omega

theorem entries_getD_fst (hh : ChainHeights chain L0) (hn : 1 ≤ chain.length)
    (j : Nat) (hj : j < chain.length) :
    ((lengthStartIndicesAndDiffs chain).getD j (0, 0)).1 = j := by
  rw [entries_closed chain L0 hh hn]
  cases j with
  | zero => rfl
  | succ m =>
    rw [List.getD_cons_succ]
    rw [map_range'_getD (fun j => (j, 1)) (0, 0) (chain.length - 1) 1 m (by omega)]
    omega

theorem entries_getLast_fst (hh : ChainHeights chain L0)
    (hn : 1 ≤ chain.length) :
    (((lengthStartIndicesAndDiffs chain).getLast?).getD (0, 0)).1 =
      chain.length - 1 := by
  have hne : lengthStartIndicesAndDiffs chain ≠ [] := by
    rw [entries_closed chain L0 hh hn]
    simp
  rw [getLast?_eq_getD _ (0, 0) hne]
  simp only [Option.getD_some]
  rw [entries_length chain L0 hh hn]
  exact entries_getD_fst chain L0 hh hn _ (by omega)

theorem lastContigGo_all_le_one :
    ∀ (l : List (Nat × Nat)) (prev : Nat), (∀ e ∈ l, e.2 ≤ 1) →
      lastContigGo prev l = none := by
  intro l
  induction l with
  | nil => intro prev _; rfl
  | cons e t ih =>
    intro prev hall
    unfold lastContigGo
    rw [if_neg (by have := hall e (by simp); omega)]
    exact ih e.1 (fun x hx => hall x (by simp [hx]))

theorem entries_lastContig (hh : ChainHeights chain L0)
    (hn : 1 ≤ chain.length) :
    lastContigGo 0 (lengthStartIndicesAndDiffs chain) = none := by
  apply lastContigGo_all_le_one
  rw [entries_closed chain L0 hh hn]
  intro e he
  rcases List.mem_cons.mp he with h | h
  · subst h; decide
  · rcases List.mem_map.mp h with ⟨j, _, hj⟩
    subst hj
    exact Nat.le_refl 1

theorem entries_position (hh : ChainHeights chain L0) (hn : 1 ≤ chain.length)
    (t : Nat) (ht : t < chain.length) :
    listPosition (fun x => x.1 == t) (lengthStartIndicesAndDiffs chain) =
      some t := by
  rw [entries_closed chain L0 hh hn]
  unfold listPosition
  cases t with
  | zero => simp
  | succ m =>
    have hb : ((0 : Nat) == m + 1) = false := by simp
    simp only [hb, Bool.false_eq_true, if_false]
    rw [listPosition_map_range' (m + 1) (chain.length - 1) 1 (by omega) (by omega)]
    simp

theorem segScan_singleton_parent (path cp : BlockPath H)
    (prevStart off cli csi : Nat) (hpar : is_parent path cp = true) :
    segScan [path] prevStart off cp cli csi =
      (0, path, prevStart, csi - 1, true) := by
  unfold segScan
  show List.foldl _ (off, cp, cli, csi, false) [(0, path)] = _
  simp only [List.foldl]
  rw [hpar]
  rfl

theorem fwtrLoop_chain (hh : ChainHeights chain L0) (hp : ChainLinks chain)
    (t : Nat) :
    ∀ (m i : Nat), m ≤ i → i < chain.length →
      fwtrLoop chain (lengthStartIndicesAndDiffs chain) t m 0
          (chain.getD i default) i i =
        FwtrStep.done (i - m) (i - m) := by
  intro m
  induction m with
  | zero =>
    intro i _ _
    unfold fwtrLoop
    rw [Nat.add_zero, Nat.sub_zero]
  | succ m2 ih =>
    intro i hmi hi
    have h0i : 0 < i := by omega
    have hn1 : 1 ≤ chain.length := by omega
    unfold fwtrLoop
    dsimp only
    rw [if_pos h0i]
    rw [entries_getD_fst chain L0 hh hn1 (i - 1) (by omega)]
    have hseg : (chain.drop (i - 1)).take (i - (i - 1)) =
        [chain.getD (i - 1) default] := by
      rw [drop_eq_getD_cons chain (i - 1) default (by omega)]
      have h1 : i - (i - 1) = 1 := by omega
      have h2 : i - 1 + 1 = i := by omega
      rw [h1, h2]
      rfl
    rw [hseg]
    have hpar : is_parent (chain.getD (i - 1) default)
        (chain.getD i default) = true := by
      unfold is_parent
      have h2 : i - 1 + 1 = i := by omega
      have hlink := hp (i - 1) (by omega)
      rw [h2] at hlink
      rw [hlink]
      exact beq_self_eq_true _
    rw [segScan_singleton_parent _ _ _ _ _ _ hpar]
    show fwtrLoop chain (lengthStartIndicesAndDiffs chain) t m2 0
        (chain.getD (i - 1) default) (i - 1) (i - 1) = _
    rw [ih (i - 1) (by omega) (by omega)]
    have h3 : i - 1 - m2 = i - (m2 + 1) := by omega
    rw [h3]

theorem fwtr_chain (hh : ChainHeights chain L0) (hp : ChainLinks chain)
    (k : Nat) (hk : k + 1 ≤ chain.length) (fuel : Nat) :
    find_witness_tree_root chain (lengthStartIndicesAndDiffs chain) k
        (fuel + 1) (chain.length - 1) (chain.length - 1) =
      some (chain.length - 1 - k, chain.length - 1 - k) := by
  unfold find_witness_tree_root
  rw [entries_length chain L0 hh (by omega)]
  rw [if_neg (by omega)]
  rw [fwtrLoop_chain chain L0 hh hp k k (chain.length - 1) (by omega) (by omega)]

theorem nlsi_chain (hh : ChainHeights chain L0) (k : Nat)
    (hk : k + 1 ≤ chain.length) :
    next_length_start_index chain (chain.length - 1 - k) =
      if k = 0 then none else some (chain.length - k) := by
  unfold next_length_start_index
  dsimp only
  rw [chain_key chain L0 hh (chain.length - 1 - k) (by omega)]
  rw [drop_eq_getD_cons chain (chain.length - 1 - k) default (by omega)]
  unfold listPosition
  have hhead : decide (L0 + (chain.length - 1 - k) <
      heightOrMax (chain.getD (chain.length - 1 - k) default)) = false := by
    rw [chain_key chain L0 hh (chain.length - 1 - k) (by omega)]
    simp
  simp only [hhead, Bool.false_eq_true, if_false]
  by_cases hk0 : k = 0
  · subst hk0
    rw [List.drop_eq_nil_of_le (by omega)]
    rfl
  · rw [if_neg hk0]
    have h1 : chain.length - 1 - k + 1 = chain.length - k := by omega
    rw [h1]
    rw [drop_eq_getD_cons chain (chain.length - k) default (by omega)]
    unfold listPosition
    have hhead2 : decide (L0 + (chain.length - 1 - k) <
        heightOrMax (chain.getD (chain.length - k) default)) = true := by
      rw [chain_key chain L0 hh (chain.length - k) (by omega)]
      simp only [decide_eq_true_eq]
      omega
    simp only [hhead2, if_true]
    dsimp only [Option.map]
    have h2 : chain.length - 1 - k + (0 + 1) = chain.length - k := by omega
    rw [h2]

theorem descend_chain (hh : ChainHeights chain L0) (hp : ChainLinks chain) :
    ∀ (i : Nat), i < chain.length →
      ∀ (deep : List (BlockPath H)) (hs : List H),
        descend chain (lengthStartIndicesAndDiffs chain) i i
            (chain.getD i default) deep hs =
          Except.ok (some
            (deep ++ (List.range i).reverse.map (fun j => chain.getD j default),
             hs ++ (List.range i).reverse.map (fun j => (chain.getD j default).hash),
             0, chain.getD 0 default)) := by
  intro i
  induction i with
  | zero =>
    intro _ deep hs
    simp [descend]
  | succ i2 ih =>
    intro hi deep hs
    unfold descend
    dsimp only
    rw [entries_getD_fst chain L0 hh (by omega) i2 (by omega)]
    rw [hp i2 hi]
    dsimp only
    have hseg : (chain.drop i2).take (i2 + 1 - i2) =
        [chain.getD i2 default] := by
      rw [drop_eq_getD_cons chain i2 default (by omega)]
      have h1 : i2 + 1 - i2 = 1 := by omega
      rw [h1]
      rfl
    rw [hseg]
    have hfind : List.find?
        (fun path => (chain.getD i2 default).hash == path.hash)
        [chain.getD i2 default] = some (chain.getD i2 default) := by
      simp [List.find?, beq_self_eq_true]
    rw [hfind]
    dsimp only
    rw [ih (by omega) (deep ++ [chain.getD i2 default])
      (hs ++ [(chain.getD i2 default).hash])]
    have hrev : (List.range (i2 + 1)).reverse =
        i2 :: (List.range i2).reverse := by
      rw [List.range_succ, List.reverse_append]
      rfl
    rw [hrev]
    simp [List.append_assoc]

theorem take_succ_getD {α : Type} (l : List α) (d : α) :
    ∀ (m : Nat), m < l.length → l.take (m + 1) = l.take m ++ [l.getD m d] := by
  induction l with
  | nil => intro m h; simp at h
  | cons a t ih =>
    intro m h
    cases m with
    | zero => rfl
    | succ m2 =>
      have h2 := ih m2 (by simpa using h)
      show a :: t.take (m2 + 1) = a :: (t.take m2 ++ [t.getD m2 d])
      rw [h2]

theorem range_map_getD_eq_take (m : Nat) (hm : m ≤ chain.length) :
    (List.range m).map (fun j => chain.getD j default) = chain.take m := by
  induction m with
  | zero => simp
  | succ m2 ih =>
    rw [List.range_succ, List.map_append]
    rw [ih (by omega)]
    rw [take_succ_getD chain default m2 (by omega)]
    rfl

theorem mem_iff_getD {α : Type} (l : List α) (d : α) (a : α) (h : a ∈ l) :
    ∃ i, i < l.length ∧ l.getD i d = a := by
  induction l with
  | nil => cases h
  | cons b t ih =>
    rcases List.mem_cons.mp h with h1 | h1
    · exact ⟨0, by simp, h1.symm⟩
    · rcases ih h1 with ⟨i, hi, hgd⟩
      exact ⟨i + 1, by simpa using Nat.succ_lt_succ hi,
        by simpa [List.getD_cons_succ] using hgd⟩

theorem recentOf_chain (hh : ChainHeights chain L0) (k : Nat)
    (hk : k + 1 ≤ chain.length) :
    recentOf chain (chain.length - 1 - k) (chain.length - 1) =
      if k = 1 then [] else chain.drop (chain.length - k) := by
  unfold recentOf
  rw [nlsi_chain chain L0 hh k hk]
  by_cases hk0 : k = 0
  · subst hk0
    rw [if_pos rfl]
    rw [if_neg (by omega), List.drop_eq_nil_of_le (by omega)]
  · rw [if_neg hk0]
    by_cases hk1 : k = 1
    · subst hk1
      rw [if_pos rfl]
      show (if chain.length - 1 < chain.length - 1 then _ else []) = []
      rw [if_neg (by omega)]
    · rw [if_neg hk1]
      show (if chain.length - k < chain.length - 1 then chain.drop (chain.length - k) else []) = _
      rw [if_pos (by omega)]

theorem maxnum_chain (hh : ChainHeights chain L0) (hn : 1 ≤ chain.length) :
    maxNumCanonical (lengthStartIndicesAndDiffs chain) (chain.length - 1) =
      chain.length := by
  unfold maxNumCanonical
  rw [entries_position chain L0 hh hn (chain.length - 1) (by omega)]
  simp only [Option.getD_some]
  omega

theorem contains_of_mem {α : Type} [BEq α] [LawfulBEq α] (l : List α) (a : α)
    (h : a ∈ l) : l.contains a = true := by
  induction l with
  | nil => cases h
  | cons b t ih =>
    rcases List.mem_cons.mp h with h1 | h1
    · subst h1
      simp [List.contains_cons]
    · simp only [List.contains_cons, ih h1, Bool.or_true]

theorem orphanedOf_chain (hh : ChainHeights chain L0) (k : Nat)
    (hk : k + 1 ≤ chain.length) (hs2 : List H)
    (hmem : ∀ j, j ≤ chain.length - 1 - k →
      (chain.getD j default).hash ∈ hs2) :
    orphanedOf chain (L0 + (chain.length - 1 - k)) hs2 = [] := by
  unfold orphanedOf
  rw [List.filter_eq_nil]
  intro p hpmem
  rcases mem_iff_getD chain default p hpmem with ⟨i, hi, rfl⟩
  rw [hh i hi]
  by_cases hir : i ≤ chain.length - 1 - k
  · have hc := contains_of_mem hs2 _ (hmem i hir)
    simp [hc]
    intro _
    simpa using hmem i hir
  · simp only [Bool.and_eq_true, not_and, decide_eq_true_eq]
    intro hle
    omega

theorem deepR_chain (k : Nat) (hk : k + 1 ≤ chain.length) :
    ([chain.getD (chain.length - 1 - k) default] ++
      (List.range (chain.length - 1 - k)).reverse.map
        (fun j => chain.getD j default)).reverse =
      chain.take (chain.length - k) := by
  rw [List.reverse_append]
  have h1 : ((List.range (chain.length - 1 - k)).reverse.map
      (fun j => chain.getD j default)).reverse =
      (List.range (chain.length - 1 - k)).map (fun j => chain.getD j default) := by
    rw [← List.map_reverse, List.reverse_reverse]
  rw [h1]
  show (List.range (chain.length - 1 - k)).map (fun j => chain.getD j default) ++
      [chain.getD (chain.length - 1 - k) default] = _
  have h2 : (List.range (chain.length - 1 - k)).map (fun j => chain.getD j default) ++
      [chain.getD (chain.length - 1 - k) default] =
      (List.range (chain.length - 1 - k + 1)).map (fun j => chain.getD j default) := by
    rw [List.range_succ, List.map_append]
    rfl
  rw [h2]
  rw [range_map_getD_eq_take chain (chain.length - 1 - k + 1) (by omega)]
  have h3 : chain.length - 1 - k + 1 = chain.length - k := by omega
  rw [h3]

/-- C2 (amended): on every input that is exactly a contiguous parent chain of
length at least k + 1 — one block per height, consecutive heights, each block
linking to its predecessor — discovery succeeds with deep_canonical equal to
the chain below the witness-tree root inclusive (the lowest length-minus-k
blocks, sorted lowest to highest, the first at the lowest length in the set),
orphaned empty, and recent equal to the blocks strictly above the root
except when k = 1, where recent is returned empty and the block above the
root is dropped from all three lists. -/
theorem discovery_on_chain (freq k : Nat) (hk : k + 1 ≤ chain.length)
    (hh : ChainHeights chain L0) (hp : ChainLinks chain) :
    discovery none none k freq chain =
      Except.ok (chain.take (chain.length - k),
        if k = 1 then [] else chain.drop (chain.length - k), []) := by
  have hn1 : 1 ≤ chain.length := by omega
  have hnil : chain ≠ [] := by
    intro hc
    rw [hc] at hk
    simp at hk
  have hie : chain.isEmpty = false := by
    cases hc : chain with
    | nil => exact absurd hc hnil
    | cons a t => rfl
  have hsorted : sortByKey heightOrMax chain = chain := by
    apply sortByKey_sorted_id heightOrMax default
    intro i hi
    rw [chain_key chain L0 hh i (by omega), chain_key chain L0 hh (i + 1) (by omega)]
    omega
  unfold discovery
  rw [hie, if_neg (by simp : ¬(false = true))]
  rw [hsorted]
  dsimp only
  rw [hie, if_neg (by simp : ¬(false = true))]
  simp only [entries_lastContig chain L0 hh hn1]
  simp only [entries_getLast_fst chain L0 hh hn1]
  simp only [entries_position chain L0 hh hn1 (chain.length - 1) (by omega),
    Option.getD_some]
  simp only [fwtr_chain chain L0 hh hp k hk (chain.length - 1)]
  simp only [maxnum_chain chain L0 hh hn1, Option.isNone_some]
  rw [if_neg (by
    rintro (hcontra | hcontra)
    · exact Bool.false_ne_true hcontra
    · omega)]
  rw [recentOf_chain chain L0 hh k hk]
  rw [descend_chain chain L0 hh hp (chain.length - 1 - k) (by omega)
    [chain.getD (chain.length - 1 - k) default]
    [(chain.getD (chain.length - 1 - k) default).hash]]
  dsimp only
  rw [show lowestScan (chain.getD 0 default) (List.take 0 chain)
        ([chain.getD (chain.length - 1 - k) default] ++
          (List.range (chain.length - 1 - k)).reverse.map
            (fun j => chain.getD j default))
        ([(chain.getD (chain.length - 1 - k) default).hash] ++
          (List.range (chain.length - 1 - k)).reverse.map
            (fun j => (chain.getD j default).hash)) =
      Except.ok
        (([chain.getD (chain.length - 1 - k) default] ++
          (List.range (chain.length - 1 - k)).reverse.map
            (fun j => chain.getD j default)),
         ([(chain.getD (chain.length - 1 - k) default).hash] ++
          (List.range (chain.length - 1 - k)).reverse.map
            (fun j => (chain.getD j default).hash))) from rfl]
  dsimp only
  have hmax : maxCanonOf (([chain.getD (chain.length - 1 - k) default] ++
      (List.range (chain.length - 1 - k)).reverse.map
        (fun j => chain.getD j default)).reverse) =
      L0 + (chain.length - 1 - k) := by
    unfold maxCanonOf
    simp only [List.reverse_append, List.reverse_singleton]
    rw [List.getLast?_concat]
    rw [Option.some_bind]
    rw [hh (chain.length - 1 - k) (by omega)]
    rfl
  rw [hmax]
  rw [orphanedOf_chain chain L0 hh k hk
    ([(chain.getD (chain.length - 1 - k) default).hash] ++
      (List.range (chain.length - 1 - k)).reverse.map
        (fun j => (chain.getD j default).hash))
    (by
      intro j hj
      rcases Nat.eq_or_lt_of_le hj with hj1 | hj1
      · subst hj1
        exact List.mem_append_left _ (List.mem_singleton.mpr rfl)
      · apply List.mem_append_right
        apply List.mem_map_of_mem
        rw [List.mem_reverse]
        exact List.mem_range.mpr hj1)]
  rw [deepR_chain chain k hk]

end ChainProof

/-- A concrete five-block chain (heights 2 to 6, hashes 1 to 5, each linking
to its predecessor). -/
def chainW : List (BlockPath Nat) :=
  [⟨some 2, 1, some 0⟩, ⟨some 3, 2, some 1⟩, ⟨some 4, 3, some 2⟩,
   ⟨some 5, 4, some 3⟩, ⟨some 6, 5, some 4⟩]

/-- C2 witness: discovery at threshold 2 on the five-block chain returns the
lowest three blocks as deep canonical, the two above the root as recent, and
nothing orphaned. -/
theorem discovery_on_chain_witness :
    discovery (H := Nat) none none 2 10 chainW =
      Except.ok (chainW.take (chainW.length - 2),
        if 2 = 1 then ([] : List (BlockPath Nat))
        else chainW.drop (chainW.length - 2), []) :=
  discovery_on_chain chainW 2 10 2 (by decide) (by decide)
    (by
      intro i hi
      have hi4 : i < 4 := by
        have := hi
        simp only [chainW, List.length_cons, List.length_nil] at this
        omega
      interval_cases i <;> rfl)

end MinaIndexer
